import Mathlib

/-!
# Open303 wavetable oscillator: embedding and verified properties

A shallow embedding of `rosic_MipMappedWaveTable.h`, `rosic_BlendOscillator.h` and
`GlobalFunctions.h`.

Conventions of the embedding:

* `float`/`double` values are rationals (`ℚ`). The lookups and the single calls of the
  oscillator are in exact arithmetic. Where rounding decides the property (a loop that
  has to end, a phase accumulated over many calls, a cast of a large integer) the
  definition rounds every stored value to `float` with `roundToFloat`. The functions
  built on `exp` and `log` are written over an arbitrary field with the two library
  functions as parameters, and their theorem is stated over the reals.
* `int` values are integers (`Int`); where the source can overflow, the result is
  reduced to 32 bits (`wrapInt32`, `wrapUInt32`, or `% 2^32` on naturals).
* A read of `tableSet[row][col]` outside the declared array `float tableSet[12][516]`
  produces no defined value: it is `none`.
* A pointer is an `Option`; `NULL` is `none`.
* Every `while` loop is run with a fuel bound: `none` means that the loop was still
  running when the fuel ran out.
* Functions whose bodies are in files outside the given sources are modelled from the
  specification; their doc comments say so.
-/

namespace rosic

/-! ## Machine numbers

The theorems on the lookups and on single calls of the oscillator use exact rationals.
Where a property depends on how the machine rounds or wraps (loops that must end, values
accumulated over many calls, casts of large integers), the definitions below are used. -/

/-- The value an integer has when it is stored in an `unsigned int` (32 bits): it is
reduced modulo `2^32`. -/
def wrapUInt32 (z : Int) : Int := z % 2 ^ 32

/-- The value an integer has when it is stored in an `int` (32 bits, two's complement):
it is reduced modulo `2^32` into `-2^31 .. 2^31 - 1`. (C++ leaves signed overflow
undefined; this is the wrap that the compiled code performs.) -/
def wrapInt32 (z : Int) : Int := (z + 2 ^ 31) % 2 ^ 32 - 2 ^ 31

/-- Rounding of a rational to the nearest integer, a tie going to the even one. -/
def roundHalfEven (m : ℚ) : Int :=
  if m - (⌊m⌋ : ℚ) < 1 / 2 then ⌊m⌋
  else if 1 / 2 < m - (⌊m⌋ : ℚ) then ⌊m⌋ + 1
  else if ⌊m⌋ % 2 = 0 then ⌊m⌋
  else ⌊m⌋ + 1

/-- The binary exponent that fixes the spacing of the `float` values around `x`: the
exponent `e` with `2^e ≤ |x| < 2^(e+1)`, and `-126` for every smaller `|x|` (the
subnormal range). -/
def floatExponent (x : ℚ) : Int := max (Int.log 2 |x|) (-126)

/-- The value a `float` variable holds after the exact result `x` is stored in it: the
nearest multiple of the spacing `2^(e - 23)` (24 significant bits), a tie going to the
even multiple, as IEEE 754 single precision rounds. Overflow to infinity is not
modelled; no value in this file comes near `2^128`. -/
def roundToFloat (x : ℚ) : ℚ :=
  (roundHalfEven (x / 2 ^ (floatExponent x - 23)) : ℚ) * 2 ^ (floatExponent x - 23)

/-! ## rosic_MipMappedWaveTable.h -/

/-- Length of the lookup table: `static const int tableLength = 512`. -/
def tableLength : Int := 512

/-- Number of band-limited tables: `static const int numTables = 12`. -/
def numTables : Int := 12

/-- Data members of `MipMappedWaveTable`. `prototypeTable` and `tableSet` hold the
contents of the arrays `float prototypeTable[tableLength+4]` and
`float tableSet[numTables][tableLength+4]`; only the entries inside those bounds are
ever observed (see `readTableSet`). -/
structure MipMappedWaveTable where
  symmetry : ℚ
  waveform : Int
  sampleRate : ℚ
  prototypeTable : Nat → ℚ
  tableSet : Nat → Nat → ℚ
  tanhShaperFactor : ℚ
  tanhShaperOffset : ℚ
  squarePhaseShift : ℚ

/-- The table index after the range check at the top of
`getValueLinear(int, float, int)`:
`if( tableIndex<=0 ) tableIndex = 0; else if ( tableIndex>numTables ) tableIndex = 11;` -/
def clampTableIndex (tableIndex : Int) : Int :=
  if tableIndex ≤ 0 then 0
  else if tableIndex > numTables then 11
  else tableIndex

/-- The element access `tableSet[row][col]` on `float tableSet[numTables][tableLength+4]`:
defined exactly for `0 ≤ row < numTables` and `0 ≤ col < tableLength + 4`. -/
def MipMappedWaveTable.readTableSet (t : MipMappedWaveTable) (row col : Int) : Option ℚ :=
  if 0 ≤ row ∧ row < numTables ∧ 0 ≤ col ∧ col < tableLength + 4 then
    some (t.tableSet row.toNat col.toNat)
  else none

/-- The three-argument `MipMappedWaveTable::getValueLinear(integerPart, fractionalPart,
tableIndex)`: range check on the table index, then
`(1.0-fractionalPart) * tableSet[tableIndex][integerPart]
   + fractionalPart * tableSet[tableIndex][integerPart+1]`. -/
def MipMappedWaveTable.getValueLinear (t : MipMappedWaveTable) (integerPart : Int)
    (fractionalPart : ℚ) (tableIndex : Int) : Option ℚ :=
  let tableIndex := clampTableIndex tableIndex
  match t.readTableSet tableIndex integerPart, t.readTableSet tableIndex (integerPart + 1) with
  | some a, some b => some ((1 - fractionalPart) * a + fractionalPart * b)
  | _, _ => none

/-- Modelled from the spec: `floorInt` is declared outside the given sources (it is only
called here). The spec has the lookup "split phase into integer and fractional
components", so `floorInt` is the integer part, rounding toward minus infinity. -/
def floorInt (x : ℚ) : Int := ⌊x⌋

/-- The two-argument `MipMappedWaveTable::getValueLinear(phaseIndex, tableIndex)`:
`intIndex = floorInt(phaseIndex)`, `frac = phaseIndex - intIndex`, then the
three-argument lookup. -/
def MipMappedWaveTable.getValueLinearAtPhase (t : MipMappedWaveTable) (phaseIndex : ℚ)
    (tableIndex : Int) : Option ℚ :=
  let intIndex := floorInt phaseIndex
  let frac := phaseIndex - (intIndex : ℚ)
  t.getValueLinear intIndex frac tableIndex

/-! ### Regeneration of the prototype table

The bodies of `removeDC`, `normalize`, `reverseTime` and `renderWaveform` are in
`rosic_MipMappedWaveTable.cpp`, which is not among the given sources; the header only
declares them. They are modelled from the specification. -/

/-- The frequency index of transform bin `j` of a table of 512 samples: bins `j` and
`512 - j` carry the same frequency, so it is the smaller of the two numbers (0 for the
constant component, 256 for the Nyquist bin). -/
def binFrequency (j : ZMod 512) : Nat := min j.val (512 - j.val)

/-- Cutoff of a mip level as a frequency index: Nyquist (256) divided by `2^level`. -/
def levelCutoff (level : Nat) : ℚ := 256 / 2 ^ level

/-- Modelled from the spec: one band-limiting step of the missing `generateMipMap`.
The spec has "forward-transform the prototype, zero all frequency components at or
above that level's cutoff (Nyquist divided by 2^level), inverse-transform". The
transform is the discrete Fourier transform over one table length. -/
noncomputable def bandLimit (level : Nat) (x : ZMod 512 → ℂ) : ZMod 512 → ℂ :=
  ZMod.dft.symm
    (fun j => if levelCutoff level ≤ (binFrequency j : ℚ) then 0 else ZMod.dft x j)

/-- Modelled from the spec: the body of `generateMipMap` is missing (the header has
"generates a multisample from the prototype table"). The spec has, for each mip level,
"forward-transform the prototype, zero all frequency components at or above that
level's cutoff, inverse-transform, store the real result, and replicate the first few
samples as trailing guard values". The result is the entry `tableSet[level][col]`:
columns `0..511` hold the real part of the band-limited prototype, columns `512..515`
repeat columns `0..3`. -/
noncomputable def generateMipMap (prototypeTable : Nat → ℝ) (level col : Nat) : ℝ :=
  if col < 512 then
    (bandLimit level (fun i : ZMod 512 => ((prototypeTable i.val : ℝ) : ℂ)) (col : ZMod 512)).re
  else if col < 516 then
    (bandLimit level (fun i : ZMod 512 => ((prototypeTable i.val : ℝ) : ℂ))
      ((col - 512 : Nat) : ZMod 512)).re
  else 0

/-! ## rosic_BlendOscillator.h -/

/-- Data members of `BlendOscillator`. The two `MipMappedWaveTable*` members are
`none` when the pointer is `NULL`. -/
structure BlendOscillator where
  tableLengthDbl : ℚ
  phaseIndex : ℚ
  freq : ℚ
  increment : ℚ
  blend : ℚ
  startIndex : ℚ
  sampleRate : ℚ
  sampleRateRec : ℚ
  waveTable1 : Option MipMappedWaveTable
  waveTable2 : Option MipMappedWaveTable

/-- Setter `void setBlendFactor(float newBlendFactor) { blend = newBlendFactor; }`. -/
def BlendOscillator.setBlendFactor (osc : BlendOscillator) (newBlendFactor : ℚ) :
    BlendOscillator :=
  { osc with blend := newBlendFactor }

/-- Setter `void setIncrement(float newIncrement) { increment = newIncrement; }`. -/
def BlendOscillator.setIncrement (osc : BlendOscillator) (newIncrement : ℚ) :
    BlendOscillator :=
  { osc with increment := newIncrement }

/-- Getter `float getBlendFactor() const { return blend; }`. -/
def BlendOscillator.getBlendFactor (osc : BlendOscillator) : ℚ := osc.blend

/-- Getter `float getIncrement() const { return increment; }`. -/
def BlendOscillator.getIncrement (osc : BlendOscillator) : ℚ := osc.increment

/-- Method `BlendOscillator::setFrequency`:
`if( (newFrequency > 0.0) && (newFrequency < 20000.0) ) freq = newFrequency;` -/
def BlendOscillator.setFrequency (osc : BlendOscillator) (newFrequency : ℚ) :
    BlendOscillator :=
  if newFrequency > 0 ∧ newFrequency < 20000 then { osc with freq := newFrequency }
  else osc

/-- Method `BlendOscillator::calculateIncrement`:
`increment = tableLengthDbl*freq*sampleRateRec;` -/
def BlendOscillator.calculateIncrement (osc : BlendOscillator) : BlendOscillator :=
  { osc with increment := osc.tableLengthDbl * osc.freq * osc.sampleRateRec }

/-- The wraparound loop of `getSample`,
`while( phaseIndex>=tableLengthDbl ) phaseIndex -= tableLengthDbl;`,
run for at most `fuel` evaluations of the loop condition. The result is the phase
index on leaving the loop, or `none` when the fuel is used up before the loop ends. -/
def wraparound : Nat → ℚ → ℚ → Option ℚ
  | 0, _, _ => none
  | fuel + 1, phaseIndex, tableLengthDbl =>
    if phaseIndex ≥ tableLengthDbl then
      wraparound fuel (phaseIndex - tableLengthDbl) tableLengthDbl
    else some phaseIndex

/-- The sum `out1 + out2` of two looked-up contributions: defined when both are. -/
def addSamples (out1 out2 : Option ℚ) : Option ℚ :=
  match out1, out2 with
  | some a, some b => some (a + b)
  | _, _ => none

/-- Method `BlendOscillator::getSample`, returning the output sample and the oscillator after
the call. The macro `EXPOFFLT` comes from `GlobalDefinitions.h`, which is not among the
given sources; here it is a parameter that stands for `(int)EXPOFFLT(increment)`.
`fuel` bounds the wraparound loop, and the outer `none` means the loop did not finish
within it. The sample is `none` when a table read was outside `tableSet`. -/
def BlendOscillator.getSample (EXPOFFLT : ℚ → Int) (fuel : Nat) (osc : BlendOscillator) :
    Option (Option ℚ × BlendOscillator) :=
  match osc.waveTable1, osc.waveTable2 with
  | some waveTable1, some waveTable2 =>
    let tableNumber := EXPOFFLT osc.increment + 2
    match wraparound fuel osc.phaseIndex osc.tableLengthDbl with
    | none => none
    | some phaseIndex =>
      let intIndex := floorInt phaseIndex
      let frac := phaseIndex - (intIndex : ℚ)
      let out1 := (waveTable1.getValueLinear intIndex frac tableNumber).map
        (fun v => (1 - osc.blend) * v)
      let out2 := (waveTable2.getValueLinear intIndex frac tableNumber).map
        (fun v => osc.blend * v)
      let out2 := out2.map (fun v => v * (1 / 2))
      some (addSamples out1 out2, { osc with phaseIndex := phaseIndex + osc.increment })
  | _, _ => some (some 0, osc)

/-- The oscillator after `n` consecutive calls of `getSample` (the samples are dropped);
`none` when one of the calls did not finish within `fuel`. -/
def BlendOscillator.afterSamples (EXPOFFLT : ℚ → Int) (fuel : Nat) :
    Nat → BlendOscillator → Option BlendOscillator
  | 0, osc => some osc
  | n + 1, osc =>
    match osc.getSample EXPOFFLT fuel with
    | none => none
    | some (_, osc1) => BlendOscillator.afterSamples EXPOFFLT fuel n osc1

/-- The wraparound loop of `getSample` as the machine runs it:
`while( phaseIndex>=tableLengthDbl ) phaseIndex -= tableLengthDbl;` where `phaseIndex` is
a `float` variable, so that every difference is rounded to `float` when it is stored.
The second component of the result counts the runs of the loop body. `none` means that
the loop was still running when the fuel ran out. -/
def wraparoundFloat : Nat → ℚ → ℚ → Option (ℚ × Nat)
  | 0, _, _ => none
  | fuel + 1, phaseIndex, tableLengthDbl =>
    if phaseIndex ≥ tableLengthDbl then
      (wraparoundFloat fuel (roundToFloat (phaseIndex - tableLengthDbl)) tableLengthDbl).map
        (fun r => (r.1, r.2 + 1))
    else some (phaseIndex, 0)

/-- The effect of `getSample` on the stored phase as the machine computes it: the `NULL`
test, the wraparound loop on the `float` variable `phaseIndex`, and
`phaseIndex += increment;` with the sum rounded to `float`. The sample is not computed
here: the lookups between the loop and the update do not assign `phaseIndex`. -/
def BlendOscillator.getSamplePhaseFloat (fuel : Nat) (osc : BlendOscillator) :
    Option BlendOscillator :=
  match osc.waveTable1, osc.waveTable2 with
  | some _, some _ =>
    match wraparoundFloat fuel osc.phaseIndex osc.tableLengthDbl with
    | none => none
    | some (phaseIndex, _) =>
      some { osc with phaseIndex := roundToFloat (phaseIndex + osc.increment) }
  | _, _ => some osc

/-- The oscillator after `n` consecutive calls of `getSample`, the phase being kept in
`float` arithmetic; `none` when one of the calls did not finish within `fuel`. -/
def BlendOscillator.afterSamplesFloat (fuel : Nat) :
    Nat → BlendOscillator → Option BlendOscillator
  | 0, osc => some osc
  | n + 1, osc =>
    match BlendOscillator.afterSamplesFloat fuel n osc with
    | none => none
    | some oscN => oscN.getSamplePhaseFloat fuel


/-! ## GlobalFunctions.h

These functions are global in the source (outside the `rosic` namespace of C++). -/

/-- Function `indexToNormalizedValue`:
`return (float) (2*index+1) / (float) (2*numIndices);` The two `int` expressions are
evaluated in 32 bits, each cast rounds its integer to `float`, and the quotient is
rounded to `float`. (For `numIndices = 0` the source divides by zero, which has no
rational value; the theorems are about `numIndices ≥ 1`.) -/
def indexToNormalizedValue (index numIndices : Int) : ℚ :=
  roundToFloat (roundToFloat ((wrapInt32 (2 * index + 1) : Int) : ℚ)
    / roundToFloat ((wrapInt32 (2 * numIndices) : Int) : ℚ))

/-- Function `normalizedValueToIndex`: `return (int) floor(normalizedValue*numIndices);` -/
def normalizedValueToIndex (normalizedValue : ℚ) (numIndices : Int) : Int :=
  ⌊normalizedValue * (numIndices : ℚ)⌋

/-- Function `normalizedValueToIndex` with the product as the machine computes it:
`numIndices` is converted to `float` and the product `normalizedValue*numIndices` is
rounded to `float` before `floor` is taken. -/
def normalizedValueToIndexFloat (normalizedValue : ℚ) (numIndices : Int) : Int :=
  ⌊roundToFloat (normalizedValue * roundToFloat (numIndices : ℚ))⌋

/-- The loop of `isPowerOfTwo(unsigned int x)`, started at a given `currentPower`:
`while( currentPower <= x ) { if( currentPower == x ) return true; currentPower *= 2; }
return false;` with the product taken modulo `2^32`, as `unsigned int` arithmetic
does. `fuel` bounds the evaluations of the loop condition; `none` means the loop was
still running when the fuel ran out. -/
def isPowerOfTwoLoop : Nat → Nat → Nat → Option Bool
  | 0, _, _ => none
  | fuel + 1, currentPower, x =>
    if currentPower ≤ x then
      if currentPower = x then some true
      else isPowerOfTwoLoop fuel (currentPower * 2 % 2 ^ 32) x
    else some false

/-- Function `isPowerOfTwo(unsigned int x)`: the loop above from `currentPower = 1`. -/
def isPowerOfTwo (fuel : Nat) (x : Nat) : Option Bool :=
  isPowerOfTwoLoop fuel 1 x

/-- The loop of `nextPowerOfTwo(T x)`, started at a given `accu`:
`while(accu < x) accu *= 2; return accu;`. The template type `T` is a fixed-width
integer type; `wrap` is the reduction of a product to that type (`wrapInt32` for
`T = int`, `wrapUInt32` for `T = unsigned int`). `fuel` bounds the evaluations of the
loop condition; `none` means the loop was still running when the fuel ran out. -/
def nextPowerOfTwoLoop (wrap : Int → Int) : Nat → Int → Int → Option Int
  | 0, _, _ => none
  | fuel + 1, accu, x =>
    if accu < x then nextPowerOfTwoLoop wrap fuel (wrap (accu * 2)) x
    else some accu

/-- Function `nextPowerOfTwo(T x)`: the loop above from `T accu = 1`. -/
def nextPowerOfTwo (wrap : Int → Int) (fuel : Nat) (x : Int) : Option Int :=
  nextPowerOfTwoLoop wrap fuel 1 x

/-- Function `linToExp`. The library functions `expf` and `log` of `<math.h>` are the
parameters `exp` and `log`, and the numbers are taken from any field `K`:
`tmp = (in-inMin) / (inMax-inMin); return outMin * expf( tmp*(log(outMax/outMin)) );` -/
def linToExp {K : Type} [Field K] (exp log : K → K) (x inMin inMax outMin outMax : K) : K :=
  let tmp := (x - inMin) / (inMax - inMin)
  outMin * exp (tmp * log (outMax / outMin))

/-- Function `linToExpWithOffset`:
`tmp = linToExp(in, inMin, inMax, outMin, outMax); tmp += offset;
tmp *= outMax/(outMax+offset); return tmp;` -/
def linToExpWithOffset {K : Type} [Field K] (exp log : K → K)
    (x inMin inMax outMin outMax offset : K) : K :=
  let tmp := linToExp exp log x inMin inMax outMin outMax
  let tmp := tmp + offset
  let tmp := tmp * (outMax / (outMax + offset))
  tmp

/-- Function `expToLin` (`logf` of `<math.h>` is the parameter `log`):
`tmp = logf(in/inMin) / logf(inMax/inMin); return outMin + tmp * (outMax-outMin);` -/
def expToLin {K : Type} [Field K] (log : K → K) (x inMin inMax outMin outMax : K) : K :=
  let tmp := log (x / inMin) / log (inMax / inMin)
  outMin + tmp * (outMax - outMin)

/-- Function `expToLinWithOffset`:
`tmp = in*(inMax+offset)/inMax; tmp -= offset;
return expToLin(tmp, inMin, inMax, outMin, outMax);` -/
def expToLinWithOffset {K : Type} [Field K] (log : K → K)
    (x inMin inMax outMin outMax offset : K) : K :=
  let tmp := x * (inMax + offset) / inMax
  let tmp := tmp - offset
  expToLin log tmp inMin inMax outMin outMax

/-! ## Notions used by the specification -/

/-- A phase `p` reduced modulo the table length `T`: `p` minus the largest multiple of
`T` not above it. -/
def phaseMod (p T : ℚ) : ℚ := p - T * (⌊p / T⌋ : ℚ)

/-- Closed form of the phase index on leaving the wraparound loop when the table length
`T` is positive: a phase below `T` (a negative one included) is left alone, any other
phase is reduced modulo `T`. -/
def wrappedPhase (p T : ℚ) : ℚ := if p < T then p else phaseMod p T

/-- Circular distance of two positions on a cycle of length `T`: the shorter of the two
arcs between them. -/
def circularDistance (a b T : ℚ) : ℚ := min |a - b| (T - |a - b|)

/-! ## Example data -/

/-- A wavetable whose row `r` holds the ramp `col + r` in every column. -/
def rampTable : MipMappedWaveTable :=
  { symmetry := 1 / 2, waveform := 4, sampleRate := 44100,
    prototypeTable := fun i => (i : ℚ),
    tableSet := fun r c => (c : ℚ) + (r : ℚ),
    tanhShaperFactor := 1, tanhShaperOffset := 0, squarePhaseShift := 0 }

/-- A wavetable that is zero everywhere. -/
def silentTable : MipMappedWaveTable :=
  { symmetry := 1 / 2, waveform := 0, sampleRate := 44100,
    prototypeTable := fun _ => 0,
    tableSet := fun _ _ => 0,
    tanhShaperFactor := 1, tanhShaperOffset := 0, squarePhaseShift := 0 }

/-- An oscillator at 440 Hz and 44100 Hz sample rate with both tables bound. -/
def exampleOsc : BlendOscillator :=
  { tableLengthDbl := 512, phaseIndex := 2061 / 2, freq := 440, increment := 8,
    blend := 1 / 4, startIndex := 0, sampleRate := 44100, sampleRateRec := 1 / 44100,
    waveTable1 := some rampTable, waveTable2 := some silentTable }

/-- The same oscillator with the second table pointer left `NULL`. -/
def unboundOsc : BlendOscillator :=
  { exampleOsc with waveTable2 := none }

/-- The example oscillator with the blend at 0 (first table only). -/
def blendZeroOsc : BlendOscillator :=
  { exampleOsc with blend := 0 }

/-- An oscillator with the blend at 1 whose second table is the ramp table. -/
def blendOneOsc : BlendOscillator :=
  { exampleOsc with blend := 1, waveTable1 := some silentTable, waveTable2 := some rampTable }

/-- The example oscillator with a blend of 3, outside `[0,1]`, and the ramp table bound
as both tables. -/
def overdrivenOsc : BlendOscillator :=
  { exampleOsc with blend := 3, waveTable2 := some rampTable }

/-- An oscillator whose phase starts inside the table, at 13/2, with an increment of
100 table positions per sample. -/
def fastOsc : BlendOscillator :=
  { exampleOsc with phaseIndex := 13 / 2, increment := 100 }

/-- An oscillator at phase 0 whose increment is the `float` value `2^-5 + 2^-16`
(about 0.0313 table positions per sample). -/
def driftOsc : BlendOscillator :=
  { exampleOsc with phaseIndex := 0, increment := 2049 / 65536 }

/-- The example oscillator at phase 0 after `setIncrement(-1)`. -/
def backwardOsc : BlendOscillator :=
  ({ exampleOsc with phaseIndex := 0 }).setIncrement (-1)

/-- The state `backwardOsc` is in after one `getSample` call: the stored phase is -1. -/
def negativePhaseOsc : BlendOscillator :=
  { exampleOsc with phaseIndex := -1, increment := -1 }

/-- A stand-in for `(int)EXPOFFLT(x)` in the examples: the binary exponent of `x`, the
integer `e` with `2^e ≤ x < 2^(e+1)` for positive `x`. -/
def binaryExponent (x : ℚ) : Int := Int.log 2 x

/-- An oscillator at phase 0 with blend 0, the all-zero table bound as both tables,
after `setIncrement(1024)`. -/
def overrangeOsc : BlendOscillator :=
  ({ exampleOsc with phaseIndex := 0, blend := 0, waveTable1 := some silentTable }).setIncrement
    1024

/-! ## Theorems -/

/-! ### Rounding to `float` -/

lemma roundHalfEven_intCast (z : ℤ) : roundHalfEven (z : ℚ) = z := by
  unfold roundHalfEven
  rw [Int.floor_intCast]
  simp

lemma abs_roundHalfEven_sub_le (m : ℚ) : |(roundHalfEven m : ℚ) - m| ≤ 1 / 2 := by
  have h0 := Int.floor_le m
  have h1 := Int.lt_floor_add_one m
  unfold roundHalfEven
  rw [abs_le]
  split_ifs with h2 h3 h4
  · constructor <;> linarith
  · push_cast
    constructor <;> linarith
  · constructor <;> linarith
  · push_cast
    constructor <;> linarith

lemma roundHalfEven_nonneg (m : ℚ) (hm : 0 ≤ m) : 0 ≤ roundHalfEven m := by
  have h := (abs_le.mp (abs_roundHalfEven_sub_le m)).1
  have h2 : (-1 : ℚ) < (roundHalfEven m : ℚ) := by linarith
  have h3 : (-1 : ℤ) < roundHalfEven m := by exact_mod_cast h2
  omega

lemma lt_zpow_floatExponent (x : ℚ) : |x| < 2 ^ (floatExponent x + 1) := by
  have h := Int.lt_zpow_succ_log_self (b := 2) (by norm_num) |x|
  have hle : Int.log 2 |x| + 1 ≤ floatExponent x + 1 := by
    unfold floatExponent
    have := le_max_left (Int.log 2 |x|) (-126)
    omega
  calc |x| < ((2 : ℕ) : ℚ) ^ (Int.log 2 |x| + 1) := h
    _ = (2 : ℚ) ^ (Int.log 2 |x| + 1) := by norm_num
    _ ≤ 2 ^ (floatExponent x + 1) := zpow_le_zpow_right₀ (by norm_num) hle

lemma floatExponent_lt (x : ℚ) (hx0 : x ≠ 0) (E : ℤ) (hE : -125 ≤ E) (hx : |x| < 2 ^ E) :
    floatExponent x < E := by
  unfold floatExponent
  have hpos : 0 < |x| := abs_pos.mpr hx0
  rw [max_lt_iff]
  constructor
  · rw [← Int.lt_zpow_iff_log_lt (by norm_num) hpos]
    simpa using hx
  · omega

lemma floatExponent_ge (x : ℚ) : -126 ≤ floatExponent x := le_max_right _ _

lemma le_floatExponent (x : ℚ) (E : ℤ) (hx : 2 ^ E ≤ |x|) : E ≤ floatExponent x := by
  unfold floatExponent
  have hpos : 0 < |x| := lt_of_lt_of_le (by positivity) hx
  have h : E ≤ Int.log 2 |x| := by
    rw [← Int.zpow_le_iff_le_log (by norm_num) hpos]
    simpa using hx
  exact le_trans h (le_max_left _ _)

lemma roundToFloat_zero : roundToFloat 0 = 0 := by
  unfold roundToFloat
  rw [zero_div]
  have h : roundHalfEven 0 = 0 := by
    have := roundHalfEven_intCast 0
    simpa using this
  rw [h]
  simp

/-- Error of one rounding: half a unit in the last place. -/
lemma abs_roundToFloat_sub_le (x : ℚ) (E : ℤ) (hE : -125 ≤ E) (hx : |x| < 2 ^ E) :
    |roundToFloat x - x| ≤ 2 ^ (E - 25) := by
  rcases eq_or_ne x 0 with h0 | h0
  · rw [h0, roundToFloat_zero, sub_zero, abs_zero]
    positivity
  have he := floatExponent_lt x h0 E hE hx
  have hu : (0 : ℚ) < 2 ^ (floatExponent x - 23) := by positivity
  have hr := abs_roundHalfEven_sub_le (x / 2 ^ (floatExponent x - 23))
  have e1 : roundToFloat x - x
      = ((roundHalfEven (x / 2 ^ (floatExponent x - 23)) : ℚ) - x / 2 ^ (floatExponent x - 23))
        * 2 ^ (floatExponent x - 23) := by
    unfold roundToFloat
    field_simp
  rw [e1, abs_mul, abs_of_pos hu]
  have h2 : (2 : ℚ) ^ (floatExponent x - 23) ≤ 2 ^ (E - 24) :=
    zpow_le_zpow_right₀ (by norm_num) (by omega)
  have h3 : (2 : ℚ) ^ (E - 24) = 2 * 2 ^ (E - 25) := by
    rw [show E - 24 = (E - 25) + 1 by ring, zpow_add_one₀ (by norm_num)]
    ring
  calc |(roundHalfEven (x / 2 ^ (floatExponent x - 23)) : ℚ) - x / 2 ^ (floatExponent x - 23)|
        * 2 ^ (floatExponent x - 23)
      ≤ 1 / 2 * 2 ^ (E - 24) := mul_le_mul hr h2 hu.le (by norm_num)
    _ = 2 ^ (E - 25) := by rw [h3]; ring

/-- A multiple `m * 2^k` of a power of two with fewer than 24 significant bits is a
`float`: rounding leaves it as it is. -/
lemma roundToFloat_of_multiple (m k : ℤ) (hk : -149 ≤ k)
    (hx : |(m : ℚ) * 2 ^ k| < 2 ^ (k + 24)) :
    roundToFloat ((m : ℚ) * 2 ^ k) = (m : ℚ) * 2 ^ k := by
  rcases eq_or_ne ((m : ℚ) * 2 ^ k) 0 with h0 | h0
  · rw [h0, roundToFloat_zero]
  have he := floatExponent_lt _ h0 (k + 24) (by omega) hx
  unfold roundToFloat
  generalize floatExponent ((m : ℚ) * 2 ^ k) = e at he
  obtain ⟨d, hd⟩ : ∃ d : ℕ, (d : ℤ) = k - (e - 23) := ⟨(k - (e - 23)).toNat, by omega⟩
  have hk2 : k = (e - 23) + d := by omega
  have h2k : (2 : ℚ) ^ k = 2 ^ (e - 23) * 2 ^ d := by
    rw [hk2, zpow_add₀ (by norm_num : (2 : ℚ) ≠ 0), zpow_natCast]
  have hu : (2 : ℚ) ^ (e - 23) ≠ 0 := by positivity
  have hq : (m : ℚ) * 2 ^ k / 2 ^ (e - 23) = ((m * 2 ^ d : ℤ) : ℚ) := by
    rw [div_eq_iff hu, h2k]
    push_cast
    ring
  rw [hq, roundHalfEven_intCast, h2k]
  push_cast
  ring

lemma roundToFloat_intCast (z : ℤ) (hz : |z| < 2 ^ 24) : roundToFloat (z : ℚ) = z := by
  have h := roundToFloat_of_multiple z 0 (by norm_num) (by
    rw [zpow_zero, mul_one, zero_add]
    have h24 : (2 : ℚ) ^ (24 : ℤ) = 2 ^ (24 : ℕ) := by norm_num
    rw [h24]
    exact_mod_cast hz)
  simpa using h

/-- The rounded value is an integer of at most 24 bits times the spacing. -/
lemma roundToFloat_mantissa (x : ℚ) :
    |(roundHalfEven (x / 2 ^ (floatExponent x - 23)) : ℤ)| ≤ 2 ^ 24 := by
  have hu : (0 : ℚ) < 2 ^ (floatExponent x - 23) := by positivity
  have hlt := lt_zpow_floatExponent x
  have hm : |x / 2 ^ (floatExponent x - 23)| < 2 ^ 24 := by
    rw [abs_div, abs_of_pos hu, div_lt_iff₀ hu]
    have e : (2 : ℚ) ^ 24 * 2 ^ (floatExponent x - 23) = 2 ^ (floatExponent x + 1) := by
      rw [show floatExponent x + 1 = (floatExponent x - 23) + 24 by ring,
        zpow_add₀ (by norm_num : (2 : ℚ) ≠ 0)]
      norm_num
      ring
    rw [e]
    exact hlt
  have hr := abs_roundHalfEven_sub_le (x / 2 ^ (floatExponent x - 23))
  have h1 : |(roundHalfEven (x / 2 ^ (floatExponent x - 23)) : ℚ)| < 2 ^ 24 + 1 := by
    have := abs_sub_abs_le_abs_sub
      (roundHalfEven (x / 2 ^ (floatExponent x - 23)) : ℚ) (x / 2 ^ (floatExponent x - 23))
    linarith
  have h2 : |(roundHalfEven (x / 2 ^ (floatExponent x - 23)) : ℤ)| < 2 ^ 24 + 1 := by
    have h3 : ((|roundHalfEven (x / 2 ^ (floatExponent x - 23))| : ℤ) : ℚ) < 2 ^ 24 + 1 := by
      rw [Int.cast_abs]
      exact h1
    exact_mod_cast h3
  omega

lemma roundToFloat_idem (x : ℚ) : roundToFloat (roundToFloat x) = roundToFloat x := by
  have hM := roundToFloat_mantissa x
  have he := floatExponent_ge x
  unfold roundToFloat at hM ⊢
  generalize floatExponent x = e at hM he
  generalize roundHalfEven (x / 2 ^ (e - 23)) = M at hM
  have hfold : ∀ y : ℚ, (roundHalfEven (y / 2 ^ (floatExponent y - 23)) : ℚ)
      * 2 ^ (floatExponent y - 23) = roundToFloat y := fun y => rfl
  rw [hfold]
  rcases lt_or_eq_of_le hM with hlt | heq
  · apply roundToFloat_of_multiple M (e - 23) (by omega)
    rw [abs_mul, abs_of_pos (by positivity : (0 : ℚ) < 2 ^ (e - 23)),
      show e - 23 + 24 = 24 + (e - 23) by ring, zpow_add₀ (by norm_num : (2 : ℚ) ≠ 0)]
    apply mul_lt_mul_of_pos_right _ (by positivity)
    have h24 : (2 : ℚ) ^ (24 : ℤ) = 2 ^ (24 : ℕ) := by norm_num
    rw [h24]
    exact_mod_cast hlt
  · have hsign : (M : ℚ) = 2 ^ 24 ∨ (M : ℚ) = -2 ^ 24 := by
      rcases abs_choice M with h | h
      · left
        rw [h] at heq
        exact_mod_cast heq
      · right
        rw [h] at heq
        have : M = -2 ^ 24 := by omega
        exact_mod_cast this
    have hp : (2 : ℚ) ^ (24 : ℤ) * 2 ^ (e - 23) = 2 ^ (e + 1) := by
      rw [← zpow_add₀ (by norm_num : (2 : ℚ) ≠ 0)]
      congr 1
      ring
    have hp24 : (2 : ℚ) ^ (24 : ℤ) = 2 ^ 24 := by norm_num
    rcases hsign with h | h
    · rw [h, ← hp24, hp]
      have := roundToFloat_of_multiple 1 (e + 1) (by omega) (by
        rw [Int.cast_one, one_mul, abs_of_pos (by positivity)]
        exact zpow_lt_zpow_right₀ (by norm_num) (by omega))
      simpa using this
    · rw [h, neg_mul, ← hp24, hp]
      have := roundToFloat_of_multiple (-1) (e + 1) (by omega) (by
        rw [Int.cast_neg, Int.cast_one, neg_one_mul, abs_neg, abs_of_pos (by positivity)]
        exact zpow_lt_zpow_right₀ (by norm_num) (by omega))
      simpa using this

lemma roundToFloat_nonneg (x : ℚ) (hx : 0 ≤ x) : 0 ≤ roundToFloat x := by
  unfold roundToFloat
  apply mul_nonneg _ (by positivity)
  have := roundHalfEven_nonneg (x / 2 ^ (floatExponent x - 23)) (div_nonneg hx (by positivity))
  exact_mod_cast this

/-- Subtracting 512 from a `float` between 512 and `2^33` is exact. -/
lemma roundToFloat_sub_512 (p : ℚ) (hp : roundToFloat p = p) (h1 : 512 ≤ p) (h2 : p < 2 ^ 33) :
    roundToFloat (p - 512) = p - 512 := by
  have hp0 : 0 < p := by linarith
  have habs : |p| = p := abs_of_pos hp0
  have he1 : 9 ≤ floatExponent p := le_floatExponent p 9 (by rw [habs]; norm_num; exact h1)
  have he2 : floatExponent p < 33 :=
    floatExponent_lt p hp0.ne' 33 (by norm_num) (by rw [habs]; exact_mod_cast h2)
  have hlt := lt_zpow_floatExponent p
  rw [habs] at hlt
  unfold roundToFloat at hp
  generalize floatExponent p = e at hp he1 he2 hlt
  generalize roundHalfEven (p / 2 ^ (e - 23)) = M at hp
  obtain ⟨d, hd⟩ : ∃ d : ℕ, (d : ℤ) = 32 - e := ⟨(32 - e).toNat, by omega⟩
  have h512 : (512 : ℚ) = ((2 ^ d : ℤ) : ℚ) * 2 ^ (e - 23) := by
    push_cast
    rw [← zpow_natCast, hd, ← zpow_add₀ (by norm_num : (2 : ℚ) ≠ 0)]
    rw [show 32 - e + (e - 23) = 9 by ring]
    norm_num
  have hform : p - 512 = ((M - 2 ^ d : ℤ) : ℚ) * 2 ^ (e - 23) := by
    rw [Int.cast_sub, sub_mul, hp, ← h512]
  rw [hform]
  apply roundToFloat_of_multiple _ _ (by omega)
  rw [← hform, abs_of_nonneg (by linarith), show e - 23 + 24 = e + 1 by ring]
  linarith

lemma roundHalfEven_of_floor (m : ℚ) (f : ℤ) (hf : ⌊m⌋ = f) :
    roundHalfEven m =
      if m - (f : ℚ) < 1 / 2 then f
      else if 1 / 2 < m - (f : ℚ) then f + 1
      else if f % 2 = 0 then f
      else f + 1 := by
  unfold roundHalfEven
  rw [hf]

lemma roundHalfEven_tie (f : ℤ) :
    roundHalfEven ((f : ℚ) + 1 / 2) = if f % 2 = 0 then f else f + 1 := by
  have hf : ⌊(f : ℚ) + 1 / 2⌋ = f := by
    rw [Int.floor_eq_iff]
    constructor <;> linarith
  rw [roundHalfEven_of_floor _ f hf]
  have e : (f : ℚ) + 1 / 2 - f = 1 / 2 := by ring
  rw [e, if_neg (lt_irrefl _), if_neg (lt_irrefl _)]

lemma floatExponent_eq (x : ℚ) (e : ℤ) (he : -126 ≤ e) (h1 : 2 ^ e ≤ |x|)
    (h2 : |x| < 2 ^ (e + 1)) : floatExponent x = e := by
  have hx0 : x ≠ 0 := by
    intro h
    rw [h, abs_zero] at h1
    exact absurd h1 (not_le.mpr (by positivity))
  have ha := le_floatExponent x e h1
  have hb := floatExponent_lt x hx0 (e + 1) (by omega) h2
  omega

lemma roundToFloat_eq (x : ℚ) (e : ℤ) (he : -126 ≤ e) (h1 : 2 ^ e ≤ |x|)
    (h2 : |x| < 2 ^ (e + 1)) :
    roundToFloat x = (roundHalfEven (x / 2 ^ (e - 23)) : ℚ) * 2 ^ (e - 23) := by
  unfold roundToFloat
  rw [floatExponent_eq x e he h1 h2]

lemma roundToFloat_tie_upper_half (f : ℤ) (h1 : 2 ^ 23 ≤ f) (h2 : f + 1 ≤ 2 ^ 24)
    (heven : f % 2 = 0) :
    roundToFloat (((f : ℚ) + 1 / 2) / 32768) = (f : ℚ) / 32768 := by
  have hf1 : (2 : ℚ) ^ 23 ≤ (f : ℚ) := by exact_mod_cast h1
  have hf2 : (f : ℚ) + 1 ≤ 2 ^ 24 := by exact_mod_cast h2
  have hpos : (0 : ℚ) < ((f : ℚ) + 1 / 2) / 32768 := by
    apply div_pos _ (by norm_num)
    linarith [show (0 : ℚ) < 2 ^ 23 by norm_num]
  rw [roundToFloat_eq _ 8 (by norm_num) (by
      rw [abs_of_pos hpos, le_div_iff₀ (by norm_num)]
      norm_num at hf1 ⊢
      linarith) (by
      rw [abs_of_pos hpos, div_lt_iff₀ (by norm_num)]
      norm_num at hf2 ⊢
      linarith)]
  have e1 : ((f : ℚ) + 1 / 2) / 32768 / 2 ^ ((8 : ℤ) - 23) = (f : ℚ) + 1 / 2 := by
    rw [show (2 : ℚ) ^ ((8 : ℤ) - 23) = 1 / 32768 by norm_num]
    field_simp
    ring
  rw [e1, roundHalfEven_tie, if_pos heven]
  norm_num
  ring

/-! ### The wraparound loop -/

lemma floor_div_sub_self (p T : ℚ) (hT : 0 < T) : ⌊(p - T) / T⌋ = ⌊p / T⌋ - 1 := by
  have h : (p - T) / T = p / T - 1 := by field_simp
  rw [h, Int.floor_sub_one]

lemma wraparound_of_lt (fuel : Nat) (p T : ℚ) (h : p < T) :
    wraparound (fuel + 1) p T = some p := by
  unfold wraparound
  rw [if_neg (not_le.mpr h)]

lemma wraparound_of_nonneg (fuel : Nat) (p T : ℚ) (hT : 0 < T) (hp : 0 ≤ p)
    (hf : ⌊p / T⌋.toNat < fuel) : wraparound fuel p T = some (phaseMod p T) := by
  induction fuel generalizing p with
  | zero => exact absurd hf (Nat.not_lt_zero _)
  | succ n ih =>
    unfold wraparound
    by_cases hge : p ≥ T
    · rw [if_pos hge]
      have h1 : (1 : ℤ) ≤ ⌊p / T⌋ := by
        rw [Int.le_floor]
        rw [le_div_iff₀ hT]
        simpa using hge
      have h2 : ⌊(p - T) / T⌋.toNat < n := by
        rw [floor_div_sub_self p T hT]
        omega
      rw [ih (p - T) (sub_nonneg.mpr hge) h2]
      unfold phaseMod
      rw [floor_div_sub_self p T hT]
      push_cast
      congr 1
      ring
    · rw [if_neg hge]
      have hlt : p < T := not_le.mp hge
      have h0 : ⌊p / T⌋ = 0 := by
        rw [Int.floor_eq_iff]
        constructor
        · simpa using div_nonneg hp hT.le
        · simpa using (div_lt_one hT).mpr hlt
      unfold phaseMod
      rw [h0]
      simp

lemma wrappedPhase_of_nonneg (p T : ℚ) (hT : 0 < T) (hp : 0 ≤ p) :
    wrappedPhase p T = phaseMod p T := by
  unfold wrappedPhase
  split_ifs with h
  · have h0 : ⌊p / T⌋ = 0 := by
      rw [Int.floor_eq_iff]
      constructor
      · simpa using div_nonneg hp hT.le
      · simpa using (div_lt_one hT).mpr h
    unfold phaseMod
    rw [h0]
    simp
  · rfl

lemma wraparound_eq_wrappedPhase (fuel : Nat) (p T : ℚ) (hT : 0 < T)
    (hf : ⌊p / T⌋.toNat < fuel) : wraparound fuel p T = some (wrappedPhase p T) := by
  by_cases h : p < T
  · obtain ⟨n, rfl⟩ : ∃ n, fuel = n + 1 := ⟨fuel - 1, by omega⟩
    rw [wraparound_of_lt n p T h]
    unfold wrappedPhase
    rw [if_pos h]
  · have hp : 0 ≤ p := le_trans hT.le (not_lt.mp h)
    rw [wraparound_of_nonneg fuel p T hT hp hf, wrappedPhase_of_nonneg p T hT hp]

/-! ### Evaluation of the example data -/

lemma phaseMod_example : phaseMod (2061 / 2) 512 = 13 / 2 := by
  unfold phaseMod
  norm_num

lemma floorInt_example : floorInt (13 / 2) = 6 := by
  unfold floorInt
  norm_num

lemma rampTable_lookup_example : rampTable.getValueLinear 6 (1 / 2) 5 = some (23 / 2) := by
  simp [MipMappedWaveTable.getValueLinear, MipMappedWaveTable.readTableSet, clampTableIndex,
    numTables, tableLength, rampTable]
  norm_num

/-! ### Phase reduction and circular distance -/

lemma phaseMod_nonneg (p T : ℚ) (hT : 0 < T) : 0 ≤ phaseMod p T := by
  unfold phaseMod
  have h := Int.floor_le (p / T)
  rw [le_div_iff₀ hT] at h
  linarith

lemma phaseMod_lt (p T : ℚ) (hT : 0 < T) : phaseMod p T < T := by
  unfold phaseMod
  have h := Int.lt_floor_add_one (p / T)
  rw [div_lt_iff₀ hT] at h
  linarith

lemma phaseMod_add_int_mul (p T : ℚ) (k : ℤ) (hT : 0 < T) :
    phaseMod (p + (k : ℚ) * T) T = phaseMod p T := by
  unfold phaseMod
  have h : (p + (k : ℚ) * T) / T = p / T + (k : ℚ) := by
    field_simp
  rw [h, Int.floor_add_int]
  push_cast
  ring

lemma phaseMod_phaseMod_add (p x T : ℚ) (hT : 0 < T) :
    phaseMod (phaseMod p T + x) T = phaseMod (p + x) T := by
  have h : phaseMod p T + x = (p + x) + ((-⌊p / T⌋ : ℤ) : ℚ) * T := by
    unfold phaseMod
    push_cast
    ring
  rw [h, phaseMod_add_int_mul _ _ _ hT]

/-! ### The wraparound loop in `float` arithmetic -/

lemma roundToFloat_stuck_example : roundToFloat (8589936640 - 512) = 8589936640 := by
  rw [roundToFloat_eq _ 33 (by norm_num) (by norm_num [abs_of_pos]) (by norm_num [abs_of_pos])]
  have e1 : ((8589936640 : ℚ) - 512) / 2 ^ ((33 : ℤ) - 23) = ((8388609 : ℤ) : ℚ) + 1 / 2 := by
    norm_num
  rw [e1, roundHalfEven_tie]
  norm_num

lemma wraparoundFloat_stuck (fuel : Nat) : wraparoundFloat fuel 8589936640 512 = none := by
  induction fuel with
  | zero => rfl
  | succ n ih =>
    unfold wraparoundFloat
    rw [if_pos (by norm_num), roundToFloat_stuck_example, ih]
    rfl

lemma wraparoundFloat_spec (fuel : Nat) (p : ℚ) (hp : roundToFloat p = p) (h33 : p < 2 ^ 33)
    (hf : ⌊p / 512⌋.toNat < fuel) :
    wraparoundFloat fuel p 512 = some (wrappedPhase p 512, ⌊p / 512⌋.toNat) := by
  induction fuel generalizing p with
  | zero => exact absurd hf (Nat.not_lt_zero _)
  | succ n ih =>
    unfold wraparoundFloat
    by_cases hge : p ≥ 512
    · rw [if_pos hge]
      have hp0 : 0 ≤ p := le_trans (by norm_num) hge
      have h1 : (1 : ℤ) ≤ ⌊p / 512⌋ := by
        rw [Int.le_floor, le_div_iff₀ (by norm_num)]
        simpa using hge
      have hfl := floor_div_sub_self p 512 (by norm_num)
      have h2 : ⌊(p - 512) / 512⌋.toNat < n := by
        rw [hfl]
        omega
      have hex := roundToFloat_sub_512 p hp hge h33
      rw [hex, ih (p - 512) (by rw [hex]) (by linarith) h2, hfl]
      simp only [Option.map_some']
      have hw : wrappedPhase (p - 512) 512 = wrappedPhase p 512 := by
        rw [wrappedPhase_of_nonneg _ _ (by norm_num) (sub_nonneg.mpr hge),
          wrappedPhase_of_nonneg _ _ (by norm_num) hp0]
        unfold phaseMod
        rw [hfl]
        push_cast
        ring
      have hk : (⌊p / 512⌋ - 1).toNat + 1 = ⌊p / 512⌋.toNat := by omega
      rw [hw, hk]
    · rw [if_neg hge]
      have hlt : p < 512 := not_le.mp hge
      have h0 : ⌊p / 512⌋ ≤ 0 := by
        have : ⌊p / 512⌋ < 1 := by
          rw [Int.floor_lt]
          simpa using (div_lt_one (by norm_num : (0 : ℚ) < 512)).mpr hlt
        omega
      have hk : ⌊p / 512⌋.toNat = 0 := by omega
      unfold wrappedPhase
      rw [if_pos hlt, hk]

/-- C22 (counterexample): the claim is false of the loop as the machine runs it. The
phase `2^33 + 2048 = 8589936640` is a `float` value and the table length is 512. In
`float` arithmetic `8589936640 - 512` is `8589936640` again (the spacing of the `float`
values there is 1024 and the tie goes to the even neighbour), so the loop body leaves
the phase where it was: the loop is still running after any number of evaluations of
its condition. -/
theorem wraparoundFloat_never_ends :
    roundToFloat 8589936640 = 8589936640 ∧ (8589936640 : ℚ) = 2 ^ 33 + 2048 ∧
      roundToFloat (8589936640 - 512) = 8589936640 ∧
      ∀ fuel : Nat, wraparoundFloat fuel 8589936640 512 = none := by
  refine ⟨?_, by norm_num, roundToFloat_stuck_example, wraparoundFloat_stuck⟩
  have h := roundToFloat_of_multiple 8388610 10 (by norm_num) (by norm_num [abs_of_pos])
  norm_num at h
  exact h

/-- C22 (amended): for the table length 512 of the oscillator and every `float` phase
`p` below `2^33`, the wraparound loop run in `float` arithmetic ends (any fuel above
`floor(p / 512)` is enough). Every subtraction is exact, so the loop ends with the
same phase as the loop in exact arithmetic: its body runs `floor(p / 512)` times when
`p ≥ 0` and not at all when `p < 512`, the phase on leaving the loop is strictly below
512 and is `p` minus the number of runs times 512. -/
theorem wraparoundFloat_terminates (fuel : Nat) (p : ℚ) (hp : roundToFloat p = p)
    (h33 : p < 2 ^ 33) (hf : ⌊p / 512⌋.toNat < fuel) :
    ∃ (q : ℚ) (k : Nat), wraparoundFloat fuel p 512 = some (q, k) ∧
      wraparound fuel p 512 = some q ∧
      (0 ≤ p → (k : Int) = ⌊p / 512⌋) ∧ (p < 512 → k = 0) ∧
      q < 512 ∧ q = p - (k : ℚ) * 512 := by
  have hT : (0 : ℚ) < 512 := by norm_num
  refine ⟨wrappedPhase p 512, ⌊p / 512⌋.toNat, wraparoundFloat_spec fuel p hp h33 hf,
    wraparound_eq_wrappedPhase fuel p 512 hT hf, ?_, ?_, ?_, ?_⟩
  · intro hp0
    exact Int.toNat_of_nonneg (Int.floor_nonneg.mpr (div_nonneg hp0 hT.le))
  · intro hlt
    have : ⌊p / 512⌋ < 1 := by
      rw [Int.floor_lt]
      simpa using (div_lt_one hT).mpr hlt
    omega
  · unfold wrappedPhase
    split_ifs with h
    · exact h
    · exact phaseMod_lt p 512 hT
  · unfold wrappedPhase
    split_ifs with h
    · have hfl : ⌊p / 512⌋ < 1 := by
        rw [Int.floor_lt]
        simpa using (div_lt_one hT).mpr h
      have hk : ⌊p / 512⌋.toNat = 0 := by omega
      rw [hk]
      simp
    · have hp0 : 0 ≤ p := le_trans hT.le (not_lt.mp h)
      have hk : ((⌊p / 512⌋.toNat : Nat) : ℤ) = ⌊p / 512⌋ :=
        Int.toNat_of_nonneg (Int.floor_nonneg.mpr (div_nonneg hp0 hT.le))
      have hkq : ((⌊p / 512⌋.toNat : Nat) : ℚ) = ((⌊p / 512⌋ : ℤ) : ℚ) := by
        exact_mod_cast congrArg (fun z : ℤ => (z : ℚ)) hk
      unfold phaseMod
      rw [hkq]
      ring

lemma roundToFloat_example : roundToFloat (2061 / 2) = 2061 / 2 := by
  have h := roundToFloat_of_multiple 2061 (-1) (by norm_num) (by norm_num [abs_of_pos])
  norm_num at h
  exact h

/-- Witness for C22: table length 512 and phase 1030.5; the body runs twice and the
loop ends at 6.5. -/
theorem wraparoundFloat_terminates_witness :
    (∃ (q : ℚ) (k : Nat), wraparoundFloat 3 (2061 / 2) 512 = some (q, k) ∧
      wraparound 3 (2061 / 2) 512 = some q ∧
      ((0 : ℚ) ≤ 2061 / 2 → (k : Int) = ⌊(2061 / 2 : ℚ) / 512⌋) ∧
      ((2061 / 2 : ℚ) < 512 → k = 0) ∧
      q < 512 ∧ q = 2061 / 2 - (k : ℚ) * 512) :=
  wraparoundFloat_terminates 3 (2061 / 2) roundToFloat_example (by norm_num) (by norm_num)

/-! ### The phase over many calls in `float` arithmetic -/

lemma getSamplePhaseFloat_of_float (fuel : Nat) (osc : BlendOscillator)
    (w1 w2 : MipMappedWaveTable) (h1 : osc.waveTable1 = some w1)
    (h2 : osc.waveTable2 = some w2) (hT : osc.tableLengthDbl = 512)
    (hq : roundToFloat osc.phaseIndex = osc.phaseIndex) (h33 : osc.phaseIndex < 2 ^ 33)
    (hf : ⌊osc.phaseIndex / 512⌋.toNat < fuel) :
    osc.getSamplePhaseFloat fuel =
      some { osc with
        phaseIndex := roundToFloat (wrappedPhase osc.phaseIndex 512 + osc.increment) } := by
  unfold BlendOscillator.getSamplePhaseFloat
  rw [h1, h2, hT]
  simp only [wraparoundFloat_spec fuel _ hq h33 hf]

lemma getSamplePhaseFloat_eq_getSample (EXPOFFLT : ℚ → Int) (fuel : Nat)
    (osc : BlendOscillator) (w1 w2 : MipMappedWaveTable) (h1 : osc.waveTable1 = some w1)
    (h2 : osc.waveTable2 = some w2) (hT : osc.tableLengthDbl = 512)
    (hq : roundToFloat osc.phaseIndex = osc.phaseIndex) (h33 : osc.phaseIndex < 2 ^ 33)
    (hf : ⌊osc.phaseIndex / 512⌋.toNat < fuel) :
    osc.getSamplePhaseFloat fuel =
      (osc.getSample EXPOFFLT fuel).map
        (fun r => { r.2 with phaseIndex := roundToFloat r.2.phaseIndex }) := by
  rw [getSamplePhaseFloat_of_float fuel osc w1 w2 h1 h2 hT hq h33 hf]
  unfold BlendOscillator.getSample
  rw [h1, h2, hT]
  simp only [wraparound_eq_wrappedPhase fuel _ 512 (by norm_num) hf, Option.map_some']

lemma afterSamplesFloat_succ (fuel n : Nat) (osc : BlendOscillator) :
    osc.afterSamplesFloat fuel (n + 1) =
      match osc.afterSamplesFloat fuel n with
      | none => none
      | some oscN => oscN.getSamplePhaseFloat fuel := rfl

lemma circularDistance_phaseMod_le (p d T : ℚ) (hT : 0 < T) (hp0 : 0 ≤ p) (hpT : p < T) :
    circularDistance (phaseMod (p + d) T) p T ≤ |d| := by
  have ha0 := phaseMod_nonneg (p + d) T hT
  have haT := phaseMod_lt (p + d) T hT
  unfold phaseMod at ha0 haT ⊢
  unfold circularDistance
  set k : ℤ := ⌊(p + d) / T⌋ with hk
  have hx : p + d - T * (k : ℚ) - p = d - T * k := by ring
  rw [hx]
  rcases lt_trichotomy k 0 with hneg | hzero | hpos
  · have h1 : (k : ℚ) ≤ -1 := by exact_mod_cast (by omega : k ≤ -1)
    have hTk : T * (k : ℚ) ≤ -T := by nlinarith
    have hd : d < 0 := by nlinarith
    rw [abs_of_neg hd]
    rcases le_total 0 (d - T * (k : ℚ)) with hs | hs
    · apply min_le_of_right_le
      rw [abs_of_nonneg hs]
      linarith
    · apply min_le_of_left_le
      rw [abs_of_nonpos hs]
      linarith
  · rw [hzero]
    apply min_le_of_left_le
    simp
  · have h1 : (1 : ℚ) ≤ (k : ℚ) := by exact_mod_cast (by omega : 1 ≤ k)
    have hTk : T ≤ T * (k : ℚ) := by nlinarith
    have hd : 0 < d := by nlinarith
    rw [abs_of_pos hd]
    rcases le_total 0 (d - T * (k : ℚ)) with hs | hs
    · apply min_le_of_left_le
      rw [abs_of_nonneg hs]
      linarith
    · apply min_le_of_right_le
      rw [abs_of_nonpos hs]
      linarith

lemma afterSamplesFloat_phase (fuel : Nat) (hfuel : 3 ≤ fuel) (osc : BlendOscillator)
    (w1 w2 : MipMappedWaveTable) (h1 : osc.waveTable1 = some w1)
    (h2 : osc.waveTable2 = some w2) (hT : osc.tableLengthDbl = 512)
    (hinc0 : 0 ≤ osc.increment) (hinc : osc.increment ≤ 512)
    (hp : roundToFloat osc.phaseIndex = osc.phaseIndex)
    (hp0 : 0 ≤ osc.phaseIndex) (hpT : osc.phaseIndex < 512) (n : Nat) :
    ∃ (q : ℚ) (k : ℤ) (err : ℚ),
      osc.afterSamplesFloat fuel n = some { osc with phaseIndex := q } ∧
      roundToFloat q = q ∧ 0 ≤ q ∧ q < 1025 ∧
      q = osc.phaseIndex + (n : ℚ) * osc.increment - 512 * (k : ℚ) + err ∧
      |err| ≤ (n : ℚ) * 2 ^ (-15 : ℤ) := by
  induction n with
  | zero =>
    exact ⟨osc.phaseIndex, 0, 0, rfl, hp, hp0, by linarith, by simp, by simp⟩
  | succ n ih =>
    obtain ⟨q, k, err, hq, hfl, hq0, hq1, hqe, herr⟩ := ih
    have hfq : ⌊q / 512⌋.toNat < fuel := by
      have h : ⌊q / 512⌋ < 3 := by
        rw [Int.floor_lt, div_lt_iff₀ (by norm_num)]
        push_cast
        linarith
      omega
    have hstep := getSamplePhaseFloat_of_float fuel { osc with phaseIndex := q } w1 w2 h1 h2 hT
      hfl (by norm_num; linarith) hfq
    have hT0 : (0 : ℚ) < 512 := by norm_num
    have hw : wrappedPhase q 512 = phaseMod q 512 := wrappedPhase_of_nonneg q 512 hT0 hq0
    have hw0 := phaseMod_nonneg q 512 hT0
    have hw1 := phaseMod_lt q 512 hT0
    have hsum0 : 0 ≤ phaseMod q 512 + osc.increment := by linarith
    have hsum1 : |phaseMod q 512 + osc.increment| < 2 ^ (10 : ℤ) := by
      rw [abs_of_nonneg hsum0]
      norm_num
      linarith
    have herr1 := abs_roundToFloat_sub_le (phaseMod q 512 + osc.increment) 10 (by norm_num) hsum1
    have hstep2 : (10 : ℤ) - 25 = -15 := by norm_num
    rw [hstep2] at herr1
    have h15 : (2 : ℚ) ^ (-15 : ℤ) = 1 / 32768 := by norm_num
    refine ⟨roundToFloat (phaseMod q 512 + osc.increment), k + ⌊q / 512⌋,
      err + (roundToFloat (phaseMod q 512 + osc.increment) - (phaseMod q 512 + osc.increment)),
      ?_, roundToFloat_idem _, roundToFloat_nonneg _ hsum0, ?_, ?_, ?_⟩
    · unfold BlendOscillator.afterSamplesFloat
      rw [hq]
      simp only
      rw [hstep, hw]
    · have := (abs_le.mp herr1).2
      rw [h15] at this
      linarith
    · unfold phaseMod
      rw [hqe]
      push_cast
      ring
    · calc |err + (roundToFloat (phaseMod q 512 + osc.increment)
              - (phaseMod q 512 + osc.increment))|
          ≤ |err| + |roundToFloat (phaseMod q 512 + osc.increment)
              - (phaseMod q 512 + osc.increment)| := abs_add _ _
        _ ≤ (n : ℚ) * 2 ^ (-15 : ℤ) + 2 ^ (-15 : ℤ) := add_le_add herr herr1
        _ = ((n + 1 : ℕ) : ℚ) * 2 ^ (-15 : ℤ) := by push_cast; ring

lemma driftOsc_step (q : ℚ) (hq : roundToFloat q = q) (h512 : q < 512) :
    ({ driftOsc with phaseIndex := q } : BlendOscillator).getSamplePhaseFloat 3
      = some { driftOsc with phaseIndex := roundToFloat (q + 2049 / 65536) } := by
  have hstep := getSamplePhaseFloat_of_float 3
    { driftOsc with phaseIndex := q } rampTable silentTable rfl rfl rfl
    hq (by simp only; linarith) (by
      simp only
      have h : ⌊q / 512⌋ < 1 := by
        rw [Int.floor_lt]
        rw [div_lt_iff₀ (by norm_num)]
        push_cast
        linarith
      omega)
  rw [hstep]
  simp only
  have hw : wrappedPhase q 512 = q := by
    unfold wrappedPhase
    rw [if_pos h512]
  have hinc : driftOsc.increment = 2049 / 65536 := rfl
  rw [hw, hinc]

lemma driftOsc_first_part (n : Nat) (hn : n ≤ 8188) :
    driftOsc.afterSamplesFloat 3 n
      = some { driftOsc with phaseIndex := (n : ℚ) * 2049 / 65536 } := by
  induction n with
  | zero =>
    unfold BlendOscillator.afterSamplesFloat
    simp [driftOsc]
  | succ n ih =>
    have hn1 : n ≤ 8188 := by omega
    have hnq : (n : ℚ) + 1 ≤ 8188 := by exact_mod_cast hn
    have hn0 : (0 : ℚ) ≤ (n : ℚ) := by positivity
    have hfloat : ∀ m : ℕ, m ≤ 8188 →
        roundToFloat ((m : ℚ) * 2049 / 65536) = (m : ℚ) * 2049 / 65536 := by
      intro m hm
      have hmq : (m : ℚ) ≤ 8188 := by exact_mod_cast hm
      have hm0 : (0 : ℚ) ≤ (m : ℚ) := by positivity
      have h := roundToFloat_of_multiple ((m : ℤ) * 2049) (-16) (by norm_num) (by
        rw [abs_of_nonneg (by positivity)]
        push_cast
        norm_num
        linarith)
      have e : (((m : ℤ) * 2049 : ℤ) : ℚ) * 2 ^ (-16 : ℤ) = (m : ℚ) * 2049 / 65536 := by
        push_cast
        norm_num
        ring
      rw [e] at h
      exact h
    have hq512 : (n : ℚ) * 2049 / 65536 < 512 := by
      rw [div_lt_iff₀ (by norm_num)]
      linarith
    have hstep := getSamplePhaseFloat_of_float 3
      { driftOsc with phaseIndex := (n : ℚ) * 2049 / 65536 } rampTable silentTable rfl rfl rfl
      (hfloat n hn1) (by simp only; linarith) (by
        simp only
        have h : ⌊(n : ℚ) * 2049 / 65536 / 512⌋ < 1 := by
          rw [Int.floor_lt]
          rw [div_lt_iff₀ (by norm_num)]
          push_cast
          linarith
        omega)
    unfold BlendOscillator.afterSamplesFloat
    rw [ih hn1]
    simp only
    rw [hstep]
    simp only
    have hw : wrappedPhase ((n : ℚ) * 2049 / 65536) 512 = (n : ℚ) * 2049 / 65536 := by
      unfold wrappedPhase
      rw [if_pos hq512]
    have hinc : driftOsc.increment = 2049 / 65536 := rfl
    have hsum : (n : ℚ) * 2049 / 65536 + 2049 / 65536 = ((n + 1 : ℕ) : ℚ) * 2049 / 65536 := by
      push_cast
      ring
    rw [hw, hinc, hsum, hfloat (n + 1) hn]

lemma driftOsc_second_part (t : Nat) (ht : t ≤ 8187) :
    driftOsc.afterSamplesFloat 3 (8189 + t)
      = some { driftOsc with phaseIndex := (8389630 + 1024 * (t : ℚ)) / 32768 } := by
  induction t with
  | zero =>
    rw [show 8189 + 0 = 8188 + 1 by norm_num, afterSamplesFloat_succ,
      driftOsc_first_part 8188 (le_refl _)]
    simp only
    have hfl : roundToFloat (((8188 : ℕ) : ℚ) * 2049 / 65536)
        = ((8188 : ℕ) : ℚ) * 2049 / 65536 := by
      have h := roundToFloat_of_multiple 16777212 (-16) (by norm_num) (by norm_num [abs_of_pos])
      norm_num at h ⊢
      exact h
    rw [driftOsc_step _ hfl (by norm_num)]
    have h := roundToFloat_tie_upper_half 8389630 (by norm_num) (by norm_num) (by norm_num)
    have e : ((8188 : ℕ) : ℚ) * 2049 / 65536 + 2049 / 65536
        = (((8389630 : ℤ) : ℚ) + 1 / 2) / 32768 := by norm_num
    rw [e, h]
    norm_num
  | succ t ih =>
    have ht1 : t ≤ 8187 := by omega
    have htq : (t : ℚ) + 1 ≤ 8187 := by exact_mod_cast ht
    have ht0 : (0 : ℚ) ≤ (t : ℚ) := by positivity
    rw [show 8189 + (t + 1) = (8189 + t) + 1 by omega, afterSamplesFloat_succ, ih ht1]
    simp only
    have hfl : roundToFloat ((8389630 + 1024 * (t : ℚ)) / 32768)
        = (8389630 + 1024 * (t : ℚ)) / 32768 := by
      have h := roundToFloat_of_multiple (8389630 + 1024 * (t : ℤ)) (-15) (by norm_num) (by
        rw [abs_of_nonneg (by positivity)]
        push_cast
        norm_num
        linarith)
      have e : (((8389630 + 1024 * (t : ℤ) : ℤ)) : ℚ) * 2 ^ (-15 : ℤ)
          = (8389630 + 1024 * (t : ℚ)) / 32768 := by
        push_cast
        norm_num
        ring
      rw [e] at h
      exact h
    rw [driftOsc_step _ hfl (by
      rw [div_lt_iff₀ (by norm_num)]
      linarith)]
    have h := roundToFloat_tie_upper_half (8389630 + 1024 * ((t : ℤ) + 1)) (by
        have : (0 : ℤ) ≤ (t : ℤ) := by positivity
        norm_num
        linarith) (by
        have : (t : ℤ) + 1 ≤ 8187 := by exact_mod_cast ht
        norm_num
        linarith) (by omega)
    have e : (8389630 + 1024 * (t : ℚ)) / 32768 + 2049 / 65536
        = (((8389630 + 1024 * ((t : ℤ) + 1) : ℤ) : ℚ) + 1 / 2) / 32768 := by
      push_cast
      ring
    rw [e, h]
    push_cast
    rfl

/-- C10 (counterexample): the claim is false of the phase as the machine keeps it. The
oscillator has both tables bound, table length 512, start phase 0 and the `float`
increment `2049/65536 = 2^-5 + 2^-16`, so that `N = round(512 / inc) = 16376`. Up to
phase 256 every sum `phaseIndex + increment` is exact. From there on the spacing of
the `float` values is `2^-15` and every sum falls half way between two of them; the
tie goes down each time, so each call adds `2^-5` only. After the 16376 calls the
stored phase is `8386559/16384` (about 511.875): its circular distance from the start
phase is four increments, not less than one. -/
theorem phase_drifts_after_one_period :
    driftOsc.waveTable1 = some rampTable ∧ driftOsc.waveTable2 = some silentTable ∧
      driftOsc.tableLengthDbl = (tableLength : ℚ) ∧
      driftOsc.phaseIndex = 0 ∧ driftOsc.increment = 2049 / 65536 ∧
      roundToFloat driftOsc.increment = driftOsc.increment ∧
      (round ((tableLength : ℚ) / driftOsc.increment)).toNat = 16376 ∧
      driftOsc.afterSamplesFloat 3 16376
        = some { driftOsc with phaseIndex := 8386559 / 16384 } ∧
      phaseMod (8386559 / 16384) (tableLength : ℚ) = 8386559 / 16384 ∧
      circularDistance (8386559 / 16384) driftOsc.phaseIndex (tableLength : ℚ)
        = 4 * driftOsc.increment ∧
      ¬ circularDistance (phaseMod (8386559 / 16384) (tableLength : ℚ)) driftOsc.phaseIndex
          (tableLength : ℚ) < driftOsc.increment := by
  have hinc : driftOsc.increment = 2049 / 65536 := rfl
  have hph : driftOsc.phaseIndex = 0 := rfl
  have hT : driftOsc.tableLengthDbl = (tableLength : ℚ) := by
    simp [driftOsc, exampleOsc, tableLength]
  have hfl : roundToFloat (2049 / 65536 : ℚ) = 2049 / 65536 := by
    have h := roundToFloat_of_multiple 2049 (-16) (by norm_num) (by norm_num [abs_of_pos])
    norm_num at h ⊢
    exact h
  have hmod : phaseMod (8386559 / 16384) (tableLength : ℚ) = 8386559 / 16384 := by
    unfold phaseMod
    norm_num [tableLength]
  have hdist : circularDistance (8386559 / 16384) driftOsc.phaseIndex (tableLength : ℚ)
      = 4 * driftOsc.increment := by
    rw [hph, hinc]
    unfold circularDistance
    norm_num [tableLength, abs_of_pos]
  refine ⟨rfl, rfl, hT, hph, hinc, ?_, ?_, ?_, hmod, hdist, ?_⟩
  · rw [hinc, hfl]
  · rw [hinc]
    norm_num [tableLength, round_eq]
    rfl
  · have h := driftOsc_second_part 8187 (le_refl _)
    norm_num at h ⊢
    exact h
  · rw [hmod, hdist, hinc]
    norm_num

/-- C10 (amended): with both tables bound, table length 512, an increment `inc` with
`0 < inc ≤ 512` and a `float` start phase `p0` in `[0, 512)`, every number `n` of
consecutive `getSample` calls returns (loop fuel 3 is enough), and the phase stored
after them, kept in `float` arithmetic, is `p0 + n * inc` minus a whole number of table
lengths up to an accumulated rounding error of at most `n * 2^-15`; the state after one
more call is the state that `getSample` returns in exact arithmetic with its phase
rounded to `float`. After `N = round(512 / inc)` calls the stored phase reduced modulo
512 is therefore at circular distance at most `inc / 2 + N * 2^-15` from `p0`, and for
`inc ≥ 1/4` this is strictly less than `inc`. -/
theorem phase_after_one_period_float (fuel : Nat) (osc : BlendOscillator)
    (w1 w2 : MipMappedWaveTable)
    (h1 : osc.waveTable1 = some w1) (h2 : osc.waveTable2 = some w2)
    (hT : osc.tableLengthDbl = (tableLength : ℚ)) (hinc0 : 0 < osc.increment)
    (hinc : osc.increment ≤ (tableLength : ℚ))
    (hp : roundToFloat osc.phaseIndex = osc.phaseIndex)
    (hp0 : 0 ≤ osc.phaseIndex) (hpT : osc.phaseIndex < (tableLength : ℚ))
    (hfuel : 3 ≤ fuel) :
    (∀ n : Nat, ∃ (q : ℚ) (k : ℤ) (err : ℚ),
        osc.afterSamplesFloat fuel n = some { osc with phaseIndex := q } ∧
          q = osc.phaseIndex + (n : ℚ) * osc.increment - (tableLength : ℚ) * (k : ℚ) + err ∧
          |err| ≤ (n : ℚ) * 2 ^ (-15 : ℤ) ∧
          ∀ EXPOFFLT : ℚ → Int,
            osc.afterSamplesFloat fuel (n + 1) =
              (({ osc with phaseIndex := q } : BlendOscillator).getSample EXPOFFLT fuel).map
                (fun r => { r.2 with phaseIndex := roundToFloat r.2.phaseIndex })) ∧
      ∃ q : ℚ,
        osc.afterSamplesFloat fuel (round ((tableLength : ℚ) / osc.increment)).toNat
            = some { osc with phaseIndex := q } ∧
          circularDistance (phaseMod q (tableLength : ℚ)) osc.phaseIndex (tableLength : ℚ)
            ≤ osc.increment / 2
              + ((round ((tableLength : ℚ) / osc.increment)).toNat : ℚ) * 2 ^ (-15 : ℤ) ∧
          (1 / 4 ≤ osc.increment →
            circularDistance (phaseMod q (tableLength : ℚ)) osc.phaseIndex (tableLength : ℚ)
              < osc.increment) := by
  have hL : ((tableLength : ℤ) : ℚ) = 512 := by norm_num [tableLength]
  rw [hL] at hT hinc hpT ⊢
  have hall := afterSamplesFloat_phase fuel hfuel osc w1 w2 h1 h2 hT hinc0.le hinc hp hp0 hpT
  constructor
  · intro n
    obtain ⟨q, k, err, hq, hfl, _, hq1, hqe, herr⟩ := hall n
    refine ⟨q, k, err, hq, hqe, herr, ?_⟩
    intro EXPOFFLT
    rw [afterSamplesFloat_succ, hq]
    simp only
    refine getSamplePhaseFloat_eq_getSample EXPOFFLT fuel { osc with phaseIndex := q } w1 w2
      h1 h2 hT hfl (by simp only; linarith) ?_
    have h : ⌊q / 512⌋ < 3 := by
      rw [Int.floor_lt, div_lt_iff₀ (by norm_num)]
      push_cast
      linarith
    simp only
    omega
  obtain ⟨q, k, err, hq, _, _, _, hqe, herr⟩ := hall (round ((512 : ℚ) / osc.increment)).toNat
  have hr0 : 0 ≤ round ((512 : ℚ) / osc.increment) := by
    rw [round_eq]
    apply Int.floor_nonneg.mpr
    have := div_pos (show (0 : ℚ) < 512 by norm_num) hinc0
    linarith
  have hcast : (((round ((512 : ℚ) / osc.increment)).toNat : ℕ) : ℚ)
      = ((round ((512 : ℚ) / osc.increment) : ℤ) : ℚ) := by
    have h := Int.toNat_of_nonneg hr0
    exact_mod_cast congrArg (fun z : ℤ => (z : ℚ)) h
  rw [hcast] at hqe herr ⊢
  have habs := abs_sub_round ((512 : ℚ) / osc.increment)
  have hd : |(round ((512 : ℚ) / osc.increment) : ℚ) * osc.increment - 512|
      ≤ osc.increment / 2 := by
    have e : (round ((512 : ℚ) / osc.increment) : ℚ) * osc.increment - 512
        = -(((512 : ℚ) / osc.increment
            - (round ((512 : ℚ) / osc.increment) : ℚ)) * osc.increment) := by
      field_simp
      ring
    rw [e, abs_neg, abs_mul, abs_of_pos hinc0]
    calc |(512 : ℚ) / osc.increment - (round ((512 : ℚ) / osc.increment) : ℚ)| * osc.increment
        ≤ 1 / 2 * osc.increment := mul_le_mul_of_nonneg_right habs hinc0.le
      _ = osc.increment / 2 := by ring
  have e2 : q = (osc.phaseIndex
      + (((round ((512 : ℚ) / osc.increment) : ℚ) * osc.increment - 512) + err))
      + ((1 - k : ℤ) : ℚ) * 512 := by
    rw [hqe]
    push_cast
    ring
  have hdist : circularDistance (phaseMod q 512) osc.phaseIndex 512
      ≤ osc.increment / 2 + (round ((512 : ℚ) / osc.increment) : ℚ) * 2 ^ (-15 : ℤ) := by
    rw [e2, phaseMod_add_int_mul _ _ _ (by norm_num)]
    refine (circularDistance_phaseMod_le _ _ _ (by norm_num) hp0 hpT).trans ?_
    exact (abs_add _ _).trans (add_le_add hd herr)
  refine ⟨q, hq, hdist, ?_⟩
  intro hquarter
  refine lt_of_le_of_lt hdist ?_
  have hN := (abs_le.mp hd).2
  have h15 : (2 : ℚ) ^ (-15 : ℤ) = 1 / 32768 := by norm_num
  rw [h15]
  have hmul : (round ((512 : ℚ) / osc.increment) : ℚ) * osc.increment
      < 16384 * osc.increment * osc.increment := by
    nlinarith
  have hlt : (round ((512 : ℚ) / osc.increment) : ℚ) < 16384 * osc.increment :=
    lt_of_mul_lt_mul_right hmul hinc0.le
  linarith

lemma roundToFloat_fastOsc : roundToFloat (13 / 2 : ℚ) = 13 / 2 := by
  have h := roundToFloat_of_multiple 13 (-1) (by norm_num) (by norm_num [abs_of_pos])
  norm_num at h ⊢
  exact h

/-- Witness for C10 (amended): table length 512, increment 100 and start phase 6.5, so
that `N = round(5.12) = 5`. -/
theorem phase_after_one_period_float_witness :
    (∀ n : Nat, ∃ (q : ℚ) (k : ℤ) (err : ℚ),
        fastOsc.afterSamplesFloat 3 n = some { fastOsc with phaseIndex := q } ∧
          q = fastOsc.phaseIndex + (n : ℚ) * fastOsc.increment - (tableLength : ℚ) * (k : ℚ)
            + err ∧
          |err| ≤ (n : ℚ) * 2 ^ (-15 : ℤ) ∧
          ∀ EXPOFFLT : ℚ → Int,
            fastOsc.afterSamplesFloat 3 (n + 1) =
              (({ fastOsc with phaseIndex := q } : BlendOscillator).getSample EXPOFFLT 3).map
                (fun r => { r.2 with phaseIndex := roundToFloat r.2.phaseIndex })) ∧
      ∃ q : ℚ,
        fastOsc.afterSamplesFloat 3 (round ((tableLength : ℚ) / fastOsc.increment)).toNat
            = some { fastOsc with phaseIndex := q } ∧
          circularDistance (phaseMod q (tableLength : ℚ)) fastOsc.phaseIndex
              (tableLength : ℚ)
            ≤ fastOsc.increment / 2
              + ((round ((tableLength : ℚ) / fastOsc.increment)).toNat : ℚ) * 2 ^ (-15 : ℤ) ∧
          (1 / 4 ≤ fastOsc.increment →
            circularDistance (phaseMod q (tableLength : ℚ)) fastOsc.phaseIndex
                (tableLength : ℚ)
              < fastOsc.increment) :=
  phase_after_one_period_float 3 fastOsc rampTable silentTable rfl rfl
    (by norm_num [fastOsc, exampleOsc, tableLength])
    (by norm_num [fastOsc, exampleOsc])
    (by norm_num [fastOsc, exampleOsc, tableLength])
    (by simp only [fastOsc]; exact roundToFloat_fastOsc)
    (by norm_num [fastOsc, exampleOsc])
    (by norm_num [fastOsc, exampleOsc, tableLength]) (le_refl 3)

/-! ### Lookups and samples -/

lemma clampTableIndex_of_ne_twelve (L : Int) (h : L ≠ 12) :
    0 ≤ clampTableIndex L ∧ clampTableIndex L < numTables ∧
      (L ≤ 0 → clampTableIndex L = 0) ∧ (0 ≤ L → L ≤ 11 → clampTableIndex L = L) ∧
      (13 ≤ L → clampTableIndex L = 11) := by
  unfold clampTableIndex numTables
  split_ifs with h1 h2
  · exact ⟨le_refl 0, by decide, fun _ => rfl, fun _ _ => by omega, fun _ => by omega⟩
  · exact ⟨by decide, by decide, fun _ => by omega, fun _ _ => by omega, fun _ => rfl⟩
  · exact ⟨by omega, by omega, fun _ => by omega, fun _ _ => rfl, fun _ => by omega⟩

lemma readTableSet_isSome_congr (t1 t2 : MipMappedWaveTable) (row col : Int) :
    (t1.readTableSet row col).isSome = (t2.readTableSet row col).isSome := by
  unfold MipMappedWaveTable.readTableSet
  split_ifs <;> rfl

lemma getValueLinear_eq_none_congr (t1 t2 : MipMappedWaveTable) (i : Int) (f : ℚ) (L : Int)
    (h : t1.getValueLinear i f L = none) : t2.getValueLinear i f L = none := by
  unfold MipMappedWaveTable.getValueLinear at h ⊢
  have ha := readTableSet_isSome_congr t1 t2 (clampTableIndex L) i
  have hb := readTableSet_isSome_congr t1 t2 (clampTableIndex L) (i + 1)
  cases h1 : t1.readTableSet (clampTableIndex L) i <;>
    cases h2 : t1.readTableSet (clampTableIndex L) (i + 1) <;>
    cases h3 : t2.readTableSet (clampTableIndex L) i <;>
    cases h4 : t2.readTableSet (clampTableIndex L) (i + 1) <;>
    simp_all

lemma getSample_of_bound (EXPOFFLT : ℚ → Int) (fuel : Nat) (osc : BlendOscillator)
    (w1 w2 : MipMappedWaveTable) (h1 : osc.waveTable1 = some w1)
    (h2 : osc.waveTable2 = some w2) (hT : 0 < osc.tableLengthDbl)
    (hf : ⌊osc.phaseIndex / osc.tableLengthDbl⌋.toNat < fuel) :
    osc.getSample EXPOFFLT fuel =
      some
        (addSamples
          ((w1.getValueLinear (floorInt (wrappedPhase osc.phaseIndex osc.tableLengthDbl))
              (wrappedPhase osc.phaseIndex osc.tableLengthDbl
                - (floorInt (wrappedPhase osc.phaseIndex osc.tableLengthDbl) : ℚ))
              (EXPOFFLT osc.increment + 2)).map (fun v => (1 - osc.blend) * v))
          (((w2.getValueLinear (floorInt (wrappedPhase osc.phaseIndex osc.tableLengthDbl))
              (wrappedPhase osc.phaseIndex osc.tableLengthDbl
                - (floorInt (wrappedPhase osc.phaseIndex osc.tableLengthDbl) : ℚ))
              (EXPOFFLT osc.increment + 2)).map (fun v => osc.blend * v)).map
            (fun v => v * (1 / 2))),
         { osc with
           phaseIndex := wrappedPhase osc.phaseIndex osc.tableLengthDbl + osc.increment }) := by
  unfold BlendOscillator.getSample
  rw [h1, h2]
  simp only [wraparound_eq_wrappedPhase fuel _ _ hT hf]

/-- C1 (evaluation at the failing input): for table index 12 the range check of
`getValueLinear` leaves the index at 12, which is not below `numTables`, so the lookup
addresses a row outside `tableSet` and yields no defined value, whatever the table
contents, the integer part and the fraction. -/
theorem getValueLinear_tableIndex_twelve_out_of_range (t : MipMappedWaveTable)
    (integerPart : Int) (fractionalPart : ℚ) :
    clampTableIndex 12 = 12 ∧ ¬ (clampTableIndex 12 < numTables) ∧
      t.getValueLinear integerPart fractionalPart 12 = none := by
  have h : clampTableIndex 12 = 12 := by decide
  refine ⟨h, by decide, ?_⟩
  simp [MipMappedWaveTable.getValueLinear, MipMappedWaveTable.readTableSet, h, numTables]

/-- C2: for a valid level `L` in `0..11` and an index `i` in `0..tableLength-1`, the
lookup with fraction 0 is exactly the table entry `tableSet[L][i]` and the lookup with
fraction 1 is exactly the next entry `tableSet[L][i+1]`. -/
theorem getValueLinear_at_integer_phase (t : MipMappedWaveTable) (L i : Int)
    (hL0 : 0 ≤ L) (hL : L ≤ 11) (hi0 : 0 ≤ i) (hi : i ≤ tableLength - 1) :
    t.getValueLinear i 0 L = some (t.tableSet L.toNat i.toNat) ∧
      t.getValueLinear i 1 L = some (t.tableSet L.toNat (i + 1).toNat) := by
  have hc : clampTableIndex L = L := by
    unfold clampTableIndex numTables
    split_ifs with h1 h2
    · omega
    · omega
    · rfl
  have hi2 : i ≤ 511 := by simpa [tableLength] using hi
  have r1 : t.readTableSet L i = some (t.tableSet L.toNat i.toNat) := by
    unfold MipMappedWaveTable.readTableSet numTables tableLength
    rw [if_pos (by omega)]
  have r2 : t.readTableSet L (i + 1) = some (t.tableSet L.toNat (i + 1).toNat) := by
    unfold MipMappedWaveTable.readTableSet numTables tableLength
    rw [if_pos (by omega)]
  constructor
  · simp [MipMappedWaveTable.getValueLinear, hc, r1, r2]
  · simp [MipMappedWaveTable.getValueLinear, hc, r1, r2]

/-- Witness for C2 on the ramp table: level 3, index 511 (the last index, whose right
neighbour is the first guard sample). -/
theorem getValueLinear_at_integer_phase_witness :
    rampTable.getValueLinear 511 0 3 = some (rampTable.tableSet 3 511) ∧
      rampTable.getValueLinear 511 1 3 = some (rampTable.tableSet 3 512) :=
  getValueLinear_at_integer_phase rampTable 3 511 (by decide) (by decide) (by decide)
    (by decide)

/-- C3: a new frequency that is not strictly between 0 and 20000 leaves the whole
oscillator, and so the stored frequency, unchanged. -/
theorem setFrequency_out_of_range (osc : BlendOscillator) (newFrequency : ℚ)
    (h : newFrequency ≤ 0 ∨ 20000 ≤ newFrequency) :
    osc.setFrequency newFrequency = osc := by
  unfold BlendOscillator.setFrequency
  rw [if_neg]
  rintro ⟨h0, h1⟩
  rcases h with h | h
  · exact absurd h0 (not_lt.mpr h)
  · exact absurd h1 (not_lt.mpr h)

/-- Witness for C3 at the inputs -5, 30000 and the two boundary values 0 and 20000. -/
theorem setFrequency_out_of_range_witness :
    exampleOsc.setFrequency (-5) = exampleOsc ∧ exampleOsc.setFrequency 30000 = exampleOsc ∧
      exampleOsc.setFrequency 0 = exampleOsc ∧ exampleOsc.setFrequency 20000 = exampleOsc :=
  ⟨setFrequency_out_of_range exampleOsc (-5) (Or.inl (by norm_num)),
   setFrequency_out_of_range exampleOsc 30000 (Or.inr (by norm_num)),
   setFrequency_out_of_range exampleOsc 0 (Or.inl (le_refl 0)),
   setFrequency_out_of_range exampleOsc 20000 (Or.inr (le_refl 20000))⟩

/-- C4: a new frequency strictly between 0 and 20000 is stored as the frequency and
nothing else changes; in particular the increment keeps its previous value. -/
theorem setFrequency_in_range (osc : BlendOscillator) (newFrequency : ℚ)
    (h0 : 0 < newFrequency) (h1 : newFrequency < 20000) :
    osc.setFrequency newFrequency = { osc with freq := newFrequency } ∧
      (osc.setFrequency newFrequency).freq = newFrequency ∧
      (osc.setFrequency newFrequency).increment = osc.increment := by
  have h : osc.setFrequency newFrequency = { osc with freq := newFrequency } := by
    unfold BlendOscillator.setFrequency
    rw [if_pos ⟨h0, h1⟩]
  refine ⟨h, ?_, ?_⟩ <;> rw [h]

/-- Witness for C4: setting 880 Hz on the example oscillator. -/
theorem setFrequency_in_range_witness :
    exampleOsc.setFrequency 880 = { exampleOsc with freq := 880 } ∧
      (exampleOsc.setFrequency 880).freq = 880 ∧
      (exampleOsc.setFrequency 880).increment = exampleOsc.increment :=
  setFrequency_in_range exampleOsc 880 (by norm_num) (by norm_num)

/-- C5: when `tableLengthDbl` is the table length and `sampleRateRec` is the reciprocal
of a positive sample rate, `calculateIncrement` sets the increment to
`tableLength * freq / sampleRate` and changes no other field. -/
theorem calculateIncrement_spec (osc : BlendOscillator)
    (hT : osc.tableLengthDbl = (tableLength : ℚ)) (_hsr : 0 < osc.sampleRate)
    (hrec : osc.sampleRateRec = 1 / osc.sampleRate) :
    osc.calculateIncrement =
      { osc with increment := (tableLength : ℚ) * osc.freq / osc.sampleRate } := by
  unfold BlendOscillator.calculateIncrement
  rw [hT, hrec, mul_one_div]

/-- Witness for C5: 440 Hz at 44100 Hz on the example oscillator. -/
theorem calculateIncrement_spec_witness :
    exampleOsc.calculateIncrement =
      { exampleOsc with
        increment := (tableLength : ℚ) * exampleOsc.freq / exampleOsc.sampleRate } :=
  calculateIncrement_spec exampleOsc (by simp [exampleOsc, tableLength])
    (by simp [exampleOsc]) (by simp [exampleOsc])

/-- C6: when either table pointer is `NULL`, `getSample` returns 0 and leaves the
oscillator as it was, for every fuel (the loop is never entered) and every exponent
estimate. -/
theorem getSample_null_table (EXPOFFLT : ℚ → Int) (fuel : Nat) (osc : BlendOscillator)
    (h : osc.waveTable1 = none ∨ osc.waveTable2 = none) :
    osc.getSample EXPOFFLT fuel = some (some 0, osc) := by
  unfold BlendOscillator.getSample
  rcases h with h | h
  · rw [h]
  · rw [h]
    cases osc.waveTable1 <;> rfl

/-- Witness for C6: the oscillator whose second table is unset, with no fuel at all. -/
theorem getSample_null_table_witness :
    unboundOsc.getSample (fun _ => 3) 0 = some (some 0, unboundOsc) :=
  getSample_null_table (fun _ => 3) 0 unboundOsc (Or.inr rfl)

/-- C7: with both tables bound and a phase `p ≥ 0`, the sample returned by `getSample`
is exactly the first table's lookup when the blend is 0, and exactly one half of the
second table's lookup when the blend is 1. Both lookups are taken at the integer and
fractional part of the phase reduced modulo the table length and at the level
`EXPOFFLT(increment) + 2`; the other table does not enter the result. -/
theorem getSample_blend_zero_or_one (EXPOFFLT : ℚ → Int) (fuel : Nat)
    (osc : BlendOscillator) (w1 w2 : MipMappedWaveTable)
    (h1 : osc.waveTable1 = some w1) (h2 : osc.waveTable2 = some w2)
    (hT : 0 < osc.tableLengthDbl) (hp : 0 ≤ osc.phaseIndex)
    (hf : ⌊osc.phaseIndex / osc.tableLengthDbl⌋.toNat < fuel) :
    (osc.blend = 0 →
      (osc.getSample EXPOFFLT fuel).map Prod.fst =
        some (w1.getValueLinear (floorInt (phaseMod osc.phaseIndex osc.tableLengthDbl))
          (phaseMod osc.phaseIndex osc.tableLengthDbl
            - (floorInt (phaseMod osc.phaseIndex osc.tableLengthDbl) : ℚ))
          (EXPOFFLT osc.increment + 2))) ∧
    (osc.blend = 1 →
      (osc.getSample EXPOFFLT fuel).map Prod.fst =
        some ((w2.getValueLinear (floorInt (phaseMod osc.phaseIndex osc.tableLengthDbl))
          (phaseMod osc.phaseIndex osc.tableLengthDbl
            - (floorInt (phaseMod osc.phaseIndex osc.tableLengthDbl) : ℚ))
          (EXPOFFLT osc.increment + 2)).map (fun v => 1 / 2 * v))) := by
  rw [getSample_of_bound EXPOFFLT fuel osc w1 w2 h1 h2 hT hf,
    wrappedPhase_of_nonneg _ _ hT hp]
  simp only [Option.map_some']
  constructor
  · intro hb
    rw [hb]
    cases hv1 : w1.getValueLinear (floorInt (phaseMod osc.phaseIndex osc.tableLengthDbl))
        (phaseMod osc.phaseIndex osc.tableLengthDbl
          - (floorInt (phaseMod osc.phaseIndex osc.tableLengthDbl) : ℚ))
        (EXPOFFLT osc.increment + 2) with
    | none => simp [addSamples]
    | some a =>
      cases hv2 : w2.getValueLinear (floorInt (phaseMod osc.phaseIndex osc.tableLengthDbl))
          (phaseMod osc.phaseIndex osc.tableLengthDbl
            - (floorInt (phaseMod osc.phaseIndex osc.tableLengthDbl) : ℚ))
          (EXPOFFLT osc.increment + 2) with
      | none =>
        have := getValueLinear_eq_none_congr w2 w1 _ _ _ hv2
        rw [hv1] at this
        exact absurd this (by simp)
      | some b => simp [addSamples]
  · intro hb
    rw [hb]
    cases hv2 : w2.getValueLinear (floorInt (phaseMod osc.phaseIndex osc.tableLengthDbl))
        (phaseMod osc.phaseIndex osc.tableLengthDbl
          - (floorInt (phaseMod osc.phaseIndex osc.tableLengthDbl) : ℚ))
        (EXPOFFLT osc.increment + 2) with
    | none =>
      cases hv1 : w1.getValueLinear (floorInt (phaseMod osc.phaseIndex osc.tableLengthDbl))
          (phaseMod osc.phaseIndex osc.tableLengthDbl
            - (floorInt (phaseMod osc.phaseIndex osc.tableLengthDbl) : ℚ))
          (EXPOFFLT osc.increment + 2) <;> simp [addSamples]
    | some b =>
      cases hv1 : w1.getValueLinear (floorInt (phaseMod osc.phaseIndex osc.tableLengthDbl))
          (phaseMod osc.phaseIndex osc.tableLengthDbl
            - (floorInt (phaseMod osc.phaseIndex osc.tableLengthDbl) : ℚ))
          (EXPOFFLT osc.increment + 2) with
      | none =>
        have := getValueLinear_eq_none_congr w1 w2 _ _ _ hv1
        rw [hv2] at this
        exact absurd this (by simp)
      | some a =>
        simp only [addSamples, Option.map_some']
        congr 2
        ring

/-- Witness for C7: phase 1030.5 wraps to 6.5, the level is 3 + 2 = 5, and row 5 of the
ramp table interpolates to 11.5 there; blend 0 returns 11.5 and blend 1 returns half of
it. -/
theorem getSample_blend_zero_or_one_witness :
    (blendZeroOsc.getSample (fun _ => 3) 3).map Prod.fst = some (some (23 / 2)) ∧
      (blendOneOsc.getSample (fun _ => 3) 3).map Prod.fst = some (some (23 / 4)) := by
  constructor
  · refine ((getSample_blend_zero_or_one (fun _ => 3) 3 blendZeroOsc rampTable silentTable
      rfl rfl (by norm_num [blendZeroOsc, exampleOsc]) (by norm_num [blendZeroOsc, exampleOsc])
      (by norm_num [blendZeroOsc, exampleOsc])).1 rfl).trans ?_
    simp [blendZeroOsc, exampleOsc, phaseMod_example, floorInt_example]
    norm_num [rampTable_lookup_example]
  · refine ((getSample_blend_zero_or_one (fun _ => 3) 3 blendOneOsc silentTable rampTable
      rfl rfl (by norm_num [blendOneOsc, exampleOsc]) (by norm_num [blendOneOsc, exampleOsc])
      (by norm_num [blendOneOsc, exampleOsc])).2 rfl).trans ?_
    simp [blendOneOsc, exampleOsc, phaseMod_example, floorInt_example]
    norm_num [rampTable_lookup_example]

/-- C8: with both tables bound, for every blend value `b` and every phase, the sample
returned by `getSample` is `(1 - b) * v1 + 0.5 * b * v2`, where `v1` and `v2` are the
lookups of the first and second table at the same integer index, the same fraction
(the integer and fractional part of the phase on leaving the wraparound loop) and the
same level `EXPOFFLT(increment) + 2`. -/
theorem getSample_blend_formula (EXPOFFLT : ℚ → Int) (fuel : Nat)
    (osc : BlendOscillator) (w1 w2 : MipMappedWaveTable)
    (h1 : osc.waveTable1 = some w1) (h2 : osc.waveTable2 = some w2)
    (hT : 0 < osc.tableLengthDbl)
    (hf : ⌊osc.phaseIndex / osc.tableLengthDbl⌋.toNat < fuel) :
    (osc.getSample EXPOFFLT fuel).map Prod.fst =
      some
        ((w1.getValueLinear (floorInt (wrappedPhase osc.phaseIndex osc.tableLengthDbl))
            (wrappedPhase osc.phaseIndex osc.tableLengthDbl
              - (floorInt (wrappedPhase osc.phaseIndex osc.tableLengthDbl) : ℚ))
            (EXPOFFLT osc.increment + 2)).bind fun v1 =>
          (w2.getValueLinear (floorInt (wrappedPhase osc.phaseIndex osc.tableLengthDbl))
            (wrappedPhase osc.phaseIndex osc.tableLengthDbl
              - (floorInt (wrappedPhase osc.phaseIndex osc.tableLengthDbl) : ℚ))
            (EXPOFFLT osc.increment + 2)).map fun v2 =>
            (1 - osc.blend) * v1 + 1 / 2 * osc.blend * v2) := by
  rw [getSample_of_bound EXPOFFLT fuel osc w1 w2 h1 h2 hT hf]
  simp only [Option.map_some']
  congr 1
  cases w1.getValueLinear (floorInt (wrappedPhase osc.phaseIndex osc.tableLengthDbl))
      (wrappedPhase osc.phaseIndex osc.tableLengthDbl
        - (floorInt (wrappedPhase osc.phaseIndex osc.tableLengthDbl) : ℚ))
      (EXPOFFLT osc.increment + 2) <;>
    cases w2.getValueLinear (floorInt (wrappedPhase osc.phaseIndex osc.tableLengthDbl))
      (wrappedPhase osc.phaseIndex osc.tableLengthDbl
        - (floorInt (wrappedPhase osc.phaseIndex osc.tableLengthDbl) : ℚ))
      (EXPOFFLT osc.increment + 2) <;>
    simp [addSamples]
  ring

/-- Witness for C8 with the blend at 3: both lookups give 11.5, and the sample is
`(1 - 3) * 11.5 + 0.5 * 3 * 11.5 = -5.75`. -/
theorem getSample_blend_formula_witness :
    (overdrivenOsc.getSample (fun _ => 3) 3).map Prod.fst = some (some (-23 / 4)) := by
  refine (getSample_blend_formula (fun _ => 3) 3 overdrivenOsc rampTable rampTable
    rfl rfl (by norm_num [overdrivenOsc, exampleOsc])
    (by norm_num [overdrivenOsc, exampleOsc])).trans ?_
  have hw : wrappedPhase (2061 / 2) 512 = 13 / 2 := by
    rw [wrappedPhase_of_nonneg _ _ (by norm_num) (by norm_num), phaseMod_example]
  simp [overdrivenOsc, exampleOsc, hw, floorInt_example]
  norm_num [rampTable_lookup_example]

/-- C9: with both tables bound, a positive table length `T` (512 in the oscillator) and
a phase `p ≥ 0`, one `getSample` call looks both tables up at `p` reduced modulo `T`
and stores that reduced phase plus one increment, left unwrapped; no other field of
the oscillator changes. -/
theorem getSample_advances_phase (EXPOFFLT : ℚ → Int) (fuel : Nat)
    (osc : BlendOscillator) (w1 w2 : MipMappedWaveTable)
    (h1 : osc.waveTable1 = some w1) (h2 : osc.waveTable2 = some w2)
    (hT : 0 < osc.tableLengthDbl) (hp : 0 ≤ osc.phaseIndex)
    (hf : ⌊osc.phaseIndex / osc.tableLengthDbl⌋.toNat < fuel) :
    osc.getSample EXPOFFLT fuel =
      some
        (addSamples
          ((w1.getValueLinear (floorInt (phaseMod osc.phaseIndex osc.tableLengthDbl))
              (phaseMod osc.phaseIndex osc.tableLengthDbl
                - (floorInt (phaseMod osc.phaseIndex osc.tableLengthDbl) : ℚ))
              (EXPOFFLT osc.increment + 2)).map (fun v => (1 - osc.blend) * v))
          (((w2.getValueLinear (floorInt (phaseMod osc.phaseIndex osc.tableLengthDbl))
              (phaseMod osc.phaseIndex osc.tableLengthDbl
                - (floorInt (phaseMod osc.phaseIndex osc.tableLengthDbl) : ℚ))
              (EXPOFFLT osc.increment + 2)).map (fun v => osc.blend * v)).map
            (fun v => v * (1 / 2))),
         { osc with
           phaseIndex := phaseMod osc.phaseIndex osc.tableLengthDbl + osc.increment }) := by
  rw [getSample_of_bound EXPOFFLT fuel osc w1 w2 h1 h2 hT hf,
    wrappedPhase_of_nonneg _ _ hT hp]

/-- Witness for C9: from phase 1030.5 with table length 512 and increment 8, the stored
phase after one call is 6.5 + 8 = 14.5 and every other field is as before. -/
theorem getSample_advances_phase_witness :
    (exampleOsc.getSample (fun _ => 3) 3).map Prod.snd =
      some { exampleOsc with phaseIndex := 29 / 2 } := by
  rw [getSample_advances_phase (fun _ => 3) 3 exampleOsc rampTable silentTable rfl rfl
    (by norm_num [exampleOsc]) (by norm_num [exampleOsc]) (by norm_num [exampleOsc])]
  simp only [Option.map_some']
  have h : phaseMod exampleOsc.phaseIndex exampleOsc.tableLengthDbl + exampleOsc.increment
      = 29 / 2 := by
    have : phaseMod exampleOsc.phaseIndex exampleOsc.tableLengthDbl = 13 / 2 :=
      phaseMod_example
    rw [this]
    norm_num [exampleOsc]
  rw [h]

/-- C11 (counterexample): the public setter `setIncrement(-1)` followed by one
`getSample` call from phase 0 leaves the stored phase at -1, with both tables still
bound. In the next call the wraparound loop does not run (it only subtracts while the
phase is at or above the table length), so the tables are read at phase -1, which is
not in `[0, tableLength)`; the sample of that call has no defined value. -/
theorem getSample_reads_at_negative_phase :
    backwardOsc.afterSamples (fun _ => 3) 1 1 = some negativePhaseOsc ∧
      negativePhaseOsc.waveTable1 = some rampTable ∧
      negativePhaseOsc.waveTable2 = some silentTable ∧
      wraparound 1 negativePhaseOsc.phaseIndex negativePhaseOsc.tableLengthDbl = some (-1) ∧
      ¬ (0 ≤ (-1 : ℚ)) ∧
      (negativePhaseOsc.getSample (fun _ => 3) 1).map Prod.fst = some none := by
  have hw : wraparound 1 (-1) 512 = some (-1) := wraparound_of_lt 0 (-1) 512 (by norm_num)
  refine ⟨?_, rfl, rfl, hw, by norm_num, ?_⟩
  · have h0 : wraparound 1 0 512 = some 0 := wraparound_of_lt 0 0 512 (by norm_num)
    simp only [BlendOscillator.afterSamples, BlendOscillator.getSample, backwardOsc,
      BlendOscillator.setIncrement, negativePhaseOsc, exampleOsc, h0]
    norm_num
  · have hf : floorInt (-1) = -1 := by
      unfold floorInt
      norm_num
    simp only [BlendOscillator.getSample, negativePhaseOsc, exampleOsc, hw, hf]
    simp [MipMappedWaveTable.getValueLinear, MipMappedWaveTable.readTableSet, addSamples]

/-- C11 (amended): with both tables bound, a positive table length `T` (512 in the
oscillator) and a stored phase `p ≥ 0`, whatever the increment, the wraparound loop of
`getSample` ends with a phase `q` in `[0, T)`, and `q` is the position at which both
tables are read and from which the phase is advanced. -/
theorem getSample_read_phase_in_range (EXPOFFLT : ℚ → Int) (fuel : Nat)
    (osc : BlendOscillator) (w1 w2 : MipMappedWaveTable)
    (h1 : osc.waveTable1 = some w1) (h2 : osc.waveTable2 = some w2)
    (hT : 0 < osc.tableLengthDbl) (hp : 0 ≤ osc.phaseIndex)
    (hf : ⌊osc.phaseIndex / osc.tableLengthDbl⌋.toNat < fuel) :
    ∃ q : ℚ, wraparound fuel osc.phaseIndex osc.tableLengthDbl = some q ∧
      0 ≤ q ∧ q < osc.tableLengthDbl ∧
      osc.getSample EXPOFFLT fuel =
        some
          (addSamples
            ((w1.getValueLinear (floorInt q) (q - (floorInt q : ℚ))
                (EXPOFFLT osc.increment + 2)).map (fun v => (1 - osc.blend) * v))
            (((w2.getValueLinear (floorInt q) (q - (floorInt q : ℚ))
                (EXPOFFLT osc.increment + 2)).map (fun v => osc.blend * v)).map
              (fun v => v * (1 / 2))),
           { osc with phaseIndex := q + osc.increment }) := by
  refine ⟨phaseMod osc.phaseIndex osc.tableLengthDbl,
    wraparound_of_nonneg fuel _ _ hT hp hf, phaseMod_nonneg _ _ hT, phaseMod_lt _ _ hT, ?_⟩
  rw [getSample_of_bound EXPOFFLT fuel osc w1 w2 h1 h2 hT hf,
    wrappedPhase_of_nonneg _ _ hT hp]

/-- Witness for the amended C11: the example oscillator (phase 1030.5, table length
512) with a negative increment installed; the read position is 6.5. -/
theorem getSample_read_phase_in_range_witness :
    ∃ q : ℚ, wraparound 3 (exampleOsc.setIncrement (-1)).phaseIndex
        (exampleOsc.setIncrement (-1)).tableLengthDbl = some q ∧
      0 ≤ q ∧ q < (exampleOsc.setIncrement (-1)).tableLengthDbl ∧
      (exampleOsc.setIncrement (-1)).getSample (fun _ => 3) 3 =
        some
          (addSamples
            ((rampTable.getValueLinear (floorInt q) (q - (floorInt q : ℚ))
                ((fun _ => 3) (exampleOsc.setIncrement (-1)).increment + 2)).map
              (fun v => (1 - (exampleOsc.setIncrement (-1)).blend) * v))
            (((silentTable.getValueLinear (floorInt q) (q - (floorInt q : ℚ))
                ((fun _ => 3) (exampleOsc.setIncrement (-1)).increment + 2)).map
              (fun v => (exampleOsc.setIncrement (-1)).blend * v)).map
              (fun v => v * (1 / 2))),
           { exampleOsc.setIncrement (-1) with
             phaseIndex := q + (exampleOsc.setIncrement (-1)).increment }) :=
  getSample_read_phase_in_range (fun _ => 3) 3 (exampleOsc.setIncrement (-1)) rampTable
    silentTable rfl rfl
    (by norm_num [BlendOscillator.setIncrement, exampleOsc])
    (by norm_num [BlendOscillator.setIncrement, exampleOsc])
    (by norm_num [BlendOscillator.setIncrement, exampleOsc])

/-- C12: for every phase `p` and level `L`, the two-argument lookup is the
three-argument lookup at the integer part `floor(p)` and the fraction `p - floor(p)`,
and it goes through the same range check of the level: looking up at `L` and at the
range-checked `L` give the same result. -/
theorem getValueLinearAtPhase_delegates (t : MipMappedWaveTable) (p : ℚ) (L : Int) :
    t.getValueLinearAtPhase p L = t.getValueLinear ⌊p⌋ (p - (⌊p⌋ : ℚ)) L ∧
      t.getValueLinearAtPhase p L = t.getValueLinearAtPhase p (clampTableIndex L) := by
  have hidem : clampTableIndex (clampTableIndex L) = clampTableIndex L := by
    unfold clampTableIndex numTables
    split_ifs <;> omega
  constructor
  · rfl
  · unfold MipMappedWaveTable.getValueLinearAtPhase MipMappedWaveTable.getValueLinear
    simp only [hidem]

/-- C13: for every value `b`, inside `[0,1]` or not, `getBlendFactor` after
`setBlendFactor(b)` returns exactly `b`, and `setBlendFactor` changes no field other
than the blend. -/
theorem getBlendFactor_setBlendFactor (osc : BlendOscillator) (b : ℚ) :
    (osc.setBlendFactor b).getBlendFactor = b ∧
      osc.setBlendFactor b = { osc with blend := b } :=
  ⟨rfl, rfl⟩

/-! ### GlobalFunctions.h -/

lemma isPowerOfTwoLoop_zero_stuck (x : Nat) (hx : 0 < x) (fuel : Nat) :
    isPowerOfTwoLoop fuel 0 x = none := by
  induction fuel with
  | zero => rfl
  | succ n ih =>
    unfold isPowerOfTwoLoop
    rw [if_pos (Nat.zero_le x), if_neg (by omega)]
    exact ih

lemma isPowerOfTwoLoop_diverges (x : Nat) (hlo : 2 ^ 31 < x) (d : Nat) :
    ∀ k : Nat, k + d = 31 → ∀ fuel : Nat, isPowerOfTwoLoop fuel (2 ^ k) x = none := by
  induction d with
  | zero =>
    intro k hk fuel
    have hk31 : k = 31 := by omega
    subst hk31
    cases fuel with
    | zero => rfl
    | succ n =>
      unfold isPowerOfTwoLoop
      rw [if_pos (by omega), if_neg (by omega)]
      have h0 : 2 ^ 31 * 2 % 2 ^ 32 = 0 := by norm_num
      rw [h0]
      exact isPowerOfTwoLoop_zero_stuck x (by omega) n
  | succ d ih =>
    intro k hk fuel
    have hle : 2 ^ k ≤ 2 ^ 30 := Nat.pow_le_pow_right (by norm_num) (by omega)
    have hnext : 2 ^ k * 2 % 2 ^ 32 = 2 ^ (k + 1) := by
      rw [← pow_succ]
      apply Nat.mod_eq_of_lt
      exact Nat.pow_lt_pow_right (by norm_num) (by omega)
    cases fuel with
    | zero => rfl
    | succ n =>
      unfold isPowerOfTwoLoop
      have h30 : (2 : Nat) ^ 30 < 2 ^ 31 := by norm_num
      rw [if_pos (by omega), if_neg (by omega), hnext]
      exact ih (k + 1) (by omega) n

lemma isPowerOfTwo_diverges (x : Nat) (hlo : 2 ^ 31 < x) (fuel : Nat) :
    isPowerOfTwo fuel x = none := by
  unfold isPowerOfTwo
  have h := isPowerOfTwoLoop_diverges x hlo 31 0 (by norm_num) fuel
  simpa using h

lemma isPowerOfTwoLoop_of_le (x : Nat) (hx : x ≤ 2 ^ 31) (d : Nat) :
    ∀ k : Nat, k + d = 31 → ∀ fuel : Nat, d < fuel →
      ∃ b : Bool, isPowerOfTwoLoop fuel (2 ^ k) x = some b ∧
        (b = true ↔ ∃ j : Nat, k ≤ j ∧ j ≤ 31 ∧ x = 2 ^ j) := by
  induction d with
  | zero =>
    intro k hk fuel hf
    have hk31 : k = 31 := by omega
    subst hk31
    obtain ⟨n, rfl⟩ : ∃ n, fuel = n + 1 := ⟨fuel - 1, by omega⟩
    unfold isPowerOfTwoLoop
    by_cases h1 : 2 ^ 31 ≤ x
    · have hxe : 2 ^ 31 = x := le_antisymm h1 hx
      rw [if_pos h1, if_pos hxe]
      exact ⟨true, rfl, fun _ => ⟨31, le_refl _, le_refl _, hxe.symm⟩, fun _ => rfl⟩
    · rw [if_neg h1]
      refine ⟨false, rfl, fun h => absurd h (by decide), ?_⟩
      rintro ⟨j, hj1, hj2, hxj⟩
      have hj : j = 31 := by omega
      subst hj
      omega
  | succ d ih =>
    intro k hk fuel hf
    obtain ⟨n, rfl⟩ : ∃ n, fuel = n + 1 := ⟨fuel - 1, by omega⟩
    have hnext : 2 ^ k * 2 % 2 ^ 32 = 2 ^ (k + 1) := by
      rw [← pow_succ]
      apply Nat.mod_eq_of_lt
      exact Nat.pow_lt_pow_right (by norm_num) (by omega)
    unfold isPowerOfTwoLoop
    by_cases h1 : 2 ^ k ≤ x
    · rw [if_pos h1]
      by_cases h2 : 2 ^ k = x
      · rw [if_pos h2]
        exact ⟨true, rfl, fun _ => ⟨k, le_refl _, by omega, h2.symm⟩, fun _ => rfl⟩
      · rw [if_neg h2, hnext]
        obtain ⟨b, hb, hiff⟩ := ih (k + 1) (by omega) n (by omega)
        refine ⟨b, hb, ?_⟩
        rw [hiff]
        constructor
        · rintro ⟨j, hj1, hj2, hxj⟩
          exact ⟨j, by omega, hj2, hxj⟩
        · rintro ⟨j, hj1, hj2, hxj⟩
          have hjk : j ≠ k := by
            intro hjk
            rw [hjk] at hxj
            exact h2 hxj.symm
          exact ⟨j, by omega, hj2, hxj⟩
    · rw [if_neg h1]
      refine ⟨false, rfl, fun h => absurd h (by decide), ?_⟩
      rintro ⟨j, hj1, _, hxj⟩
      have hle : 2 ^ k ≤ 2 ^ j := Nat.pow_le_pow_right (by norm_num) hj1
      omega

lemma isPowerOfTwo_of_le (x : Nat) (hx : x ≤ 2 ^ 31) (fuel : Nat) (hf : 31 < fuel) :
    ∃ b : Bool, isPowerOfTwo fuel x = some b ∧
      (b = true ↔ ∃ j : Nat, j ≤ 31 ∧ x = 2 ^ j) := by
  obtain ⟨b, hb, hiff⟩ := isPowerOfTwoLoop_of_le x hx 31 0 (by norm_num) fuel hf
  refine ⟨b, by simpa [isPowerOfTwo] using hb, ?_⟩
  rw [hiff]
  constructor
  · rintro ⟨j, _, hj, hxj⟩
    exact ⟨j, hj, hxj⟩
  · rintro ⟨j, hj, hxj⟩
    exact ⟨j, Nat.zero_le j, hj, hxj⟩

/-- C16 (evaluation at the failing input): for `x = 2^31 + 1 = 2147483649`, a 32-bit
value that is not a power of two, `isPowerOfTwo` does not return within any number of
loop steps: `currentPower` reaches `2^31`, the doubling wraps it to 0 modulo `2^32`,
and `0 <= x` holds for ever after. -/
theorem isPowerOfTwo_loops_forever_above_two_pow_31 (fuel : Nat) :
    2147483649 < 2 ^ 32 ∧ isPowerOfTwo fuel 2147483649 = none :=
  ⟨by norm_num, isPowerOfTwo_diverges 2147483649 (by norm_num) fuel⟩

lemma nextPowerOfTwoLoop_zero_stuck (wrap : Int → Int) (hw : wrap 0 = 0) (x : Int)
    (hx : 0 < x) (fuel : Nat) : nextPowerOfTwoLoop wrap fuel 0 x = none := by
  induction fuel with
  | zero => rfl
  | succ n ih =>
    unfold nextPowerOfTwoLoop
    rw [if_pos hx]
    simpa [hw] using ih

lemma nextPowerOfTwoLoop_spec (wrap : Int → Int) (b : Nat)
    (hw : ∀ z : Int, 0 ≤ z → z ≤ 2 ^ b → wrap z = z) (x : Int) (hx : x ≤ 2 ^ b)
    (fuel : Nat) :
    ∀ k : Nat, (k = 0 ∨ (2 : Int) ^ (k - 1) < x) → (x - 2 ^ k).toNat < fuel →
      ∃ m : Nat, nextPowerOfTwoLoop wrap fuel (2 ^ k) x = some (2 ^ m) ∧ x ≤ 2 ^ m ∧
        (m = 0 ∨ (2 : Int) ^ (m - 1) < x) ∧ (x ≤ 1 → k = 0 → m = 0) := by
  induction fuel with
  | zero =>
    intro k _ hf
    exact absurd hf (Nat.not_lt_zero _)
  | succ n ih =>
    intro k hk hf
    have hpos : (1 : Int) ≤ 2 ^ k := one_le_pow₀ (by norm_num)
    unfold nextPowerOfTwoLoop
    by_cases hlt : (2 : Int) ^ k < x
    · rw [if_pos hlt]
      have hkb : k < b :=
        (pow_lt_pow_iff_right₀ (by norm_num : (1 : Int) < 2)).mp (lt_of_lt_of_le hlt hx)
      have hk1 : (2 : Int) ^ k * 2 = 2 ^ (k + 1) := by rw [pow_succ]
      have hle : (2 : Int) ^ (k + 1) ≤ 2 ^ b := pow_le_pow_right₀ (by norm_num) (by omega)
      rw [hk1, hw _ (by positivity) hle]
      obtain ⟨m, hm, hxm, hmin, _⟩ := ih (k + 1) (Or.inr (by simpa using hlt)) (by
        rw [pow_succ]
        omega)
      refine ⟨m, hm, hxm, hmin, ?_⟩
      intro hx1 _
      omega
    · rw [if_neg hlt]
      exact ⟨k, rfl, not_lt.mp hlt, hk, fun _ h => h⟩

lemma nextPowerOfTwo_of_le (wrap : Int → Int) (b : Nat)
    (hw : ∀ z : Int, 0 ≤ z → z ≤ 2 ^ b → wrap z = z) (x : Int) (hx : x ≤ 2 ^ b)
    (fuel : Nat) (hf : (x - 1).toNat < fuel) :
    ∃ m : Nat, nextPowerOfTwo wrap fuel x = some (2 ^ m) ∧ x ≤ 2 ^ m ∧
      (∀ j : Nat, x ≤ 2 ^ j → (2 : Int) ^ m ≤ 2 ^ j) ∧
      (x ≤ 1 → nextPowerOfTwo wrap fuel x = some 1) := by
  obtain ⟨m, hm, hxm, hmin, hone⟩ :=
    nextPowerOfTwoLoop_spec wrap b hw x hx fuel 0 (Or.inl rfl) (by simpa using hf)
  have hm1 : nextPowerOfTwo wrap fuel x = some (2 ^ m) := by
    unfold nextPowerOfTwo
    simpa using hm
  refine ⟨m, hm1, hxm, ?_, ?_⟩
  · intro j hj
    rcases hmin with h0 | hlt
    · rw [h0]
      simpa using (one_le_pow₀ (by norm_num : (1 : Int) ≤ 2) : (1 : Int) ≤ 2 ^ j)
    · have hlt2 : (2 : Int) ^ (m - 1) < 2 ^ j := lt_of_lt_of_le hlt hj
      have hmj : m - 1 < j := (pow_lt_pow_iff_right₀ (by norm_num : (1 : Int) < 2)).mp hlt2
      exact pow_le_pow_right₀ (by norm_num) (by omega)
  · intro hx1
    rw [hm1, hone hx1 rfl]
    simp

lemma wrapInt32_of_le (z : Int) (h0 : 0 ≤ z) (h : z ≤ 2 ^ 30) : wrapInt32 z = z := by
  unfold wrapInt32
  omega

lemma wrapUInt32_of_le (z : Int) (h0 : 0 ≤ z) (h : z ≤ 2 ^ 31) : wrapUInt32 z = z := by
  unfold wrapUInt32
  omega

lemma nextPowerOfTwoLoop_int_diverges (x : Int) (hlo : 2 ^ 30 < x) (d : Nat) :
    ∀ k : Nat, k + d = 30 → ∀ fuel : Nat,
      nextPowerOfTwoLoop wrapInt32 fuel (2 ^ k) x = none := by
  induction d with
  | zero =>
    intro k hk fuel
    have hk30 : k = 30 := by omega
    subst hk30
    cases fuel with
    | zero => rfl
    | succ n =>
      unfold nextPowerOfTwoLoop
      rw [if_pos hlo]
      have h1 : wrapInt32 (2 ^ 30 * 2) = -2 ^ 31 := by decide
      rw [h1]
      cases n with
      | zero => rfl
      | succ n =>
        unfold nextPowerOfTwoLoop
        rw [if_pos (by omega)]
        have h2 : wrapInt32 (-2 ^ 31 * 2) = 0 := by decide
        rw [h2]
        exact nextPowerOfTwoLoop_zero_stuck wrapInt32 (by decide) x (by omega) n
  | succ d ih =>
    intro k hk fuel
    have hle : (2 : Int) ^ k ≤ 2 ^ 29 := pow_le_pow_right₀ (by norm_num) (by omega)
    have hle1 : (2 : Int) ^ (k + 1) ≤ 2 ^ 30 := pow_le_pow_right₀ (by norm_num) (by omega)
    cases fuel with
    | zero => rfl
    | succ n =>
      unfold nextPowerOfTwoLoop
      have h29 : (2 : Int) ^ 29 < 2 ^ 30 := by norm_num
      rw [if_pos (by omega)]
      have hk1 : (2 : Int) ^ k * 2 = 2 ^ (k + 1) := by rw [pow_succ]
      rw [hk1, wrapInt32_of_le _ (by positivity) hle1]
      exact ih (k + 1) (by omega) n

lemma nextPowerOfTwoLoop_uint_diverges (x : Int) (hlo : 2 ^ 31 < x) (d : Nat) :
    ∀ k : Nat, k + d = 31 → ∀ fuel : Nat,
      nextPowerOfTwoLoop wrapUInt32 fuel (2 ^ k) x = none := by
  induction d with
  | zero =>
    intro k hk fuel
    have hk31 : k = 31 := by omega
    subst hk31
    cases fuel with
    | zero => rfl
    | succ n =>
      unfold nextPowerOfTwoLoop
      rw [if_pos hlo]
      have h1 : wrapUInt32 (2 ^ 31 * 2) = 0 := by decide
      rw [h1]
      exact nextPowerOfTwoLoop_zero_stuck wrapUInt32 (by decide) x (by omega) n
  | succ d ih =>
    intro k hk fuel
    have hle : (2 : Int) ^ k ≤ 2 ^ 30 := pow_le_pow_right₀ (by norm_num) (by omega)
    have hle1 : (2 : Int) ^ (k + 1) ≤ 2 ^ 31 := pow_le_pow_right₀ (by norm_num) (by omega)
    cases fuel with
    | zero => rfl
    | succ n =>
      unfold nextPowerOfTwoLoop
      have h30 : (2 : Int) ^ 30 < 2 ^ 31 := by norm_num
      rw [if_pos (by omega)]
      have hk1 : (2 : Int) ^ k * 2 = 2 ^ (k + 1) := by rw [pow_succ]
      rw [hk1, wrapUInt32_of_le _ (by positivity) hle1]
      exact ih (k + 1) (by omega) n

/-- C17 (evaluation at the failing inputs): `nextPowerOfTwo<int>(2^30 + 1)` and
`nextPowerOfTwo<unsigned int>(2^31 + 1)` do not return within any number of loop
steps. `accu` reaches the largest power of two of the type, the next doubling does not
fit, and after at most one more doubling `accu` is 0, where `accu < x` holds for ever.
On the way the `int` instance passes through `-2^31`. -/
theorem nextPowerOfTwo_loops_forever (fuel : Nat) :
    nextPowerOfTwo wrapInt32 fuel 1073741825 = none ∧
      nextPowerOfTwo wrapUInt32 fuel 2147483649 = none ∧
      wrapInt32 (2 ^ 30 * 2) = -2 ^ 31 ∧ wrapInt32 (-2 ^ 31 * 2) = 0 ∧
      wrapUInt32 (2 ^ 31 * 2) = 0 := by
  refine ⟨?_, ?_, by decide, by decide, by decide⟩
  · have h := nextPowerOfTwoLoop_int_diverges 1073741825 (by norm_num) 30 0 (by norm_num) fuel
    simpa [nextPowerOfTwo] using h
  · have h := nextPowerOfTwoLoop_uint_diverges 2147483649 (by norm_num) 31 0 (by norm_num)
      fuel
    simpa [nextPowerOfTwo] using h

lemma normalizedValueToIndex_in_range (v : ℚ) (n : Int) (hn : 1 ≤ n) (hv0 : 0 ≤ v)
    (hv1 : v < 1) : 0 ≤ normalizedValueToIndex v n ∧ normalizedValueToIndex v n ≤ n - 1 := by
  have hnq : (0 : ℚ) < (n : ℚ) := by exact_mod_cast (by omega : 0 < n)
  unfold normalizedValueToIndex
  constructor
  · exact Int.floor_nonneg.mpr (mul_nonneg hv0 hnq.le)
  · have h : ⌊v * (n : ℚ)⌋ < n := by
      rw [Int.floor_lt]
      nlinarith
    omega

lemma indexToNormalizedValue_of_le (i n : Int) (hn : 1 ≤ n) (hn2 : n ≤ 2 ^ 22)
    (hi0 : 0 ≤ i) (hi : i ≤ n - 1) :
    indexToNormalizedValue i n = roundToFloat ((2 * (i : ℚ) + 1) / (2 * (n : ℚ))) := by
  unfold indexToNormalizedValue
  rw [wrapInt32_of_le (2 * i + 1) (by omega) (by omega),
    wrapInt32_of_le (2 * n) (by omega) (by omega),
    roundToFloat_intCast (2 * i + 1) (abs_lt.mpr ⟨by omega, by omega⟩),
    roundToFloat_intCast (2 * n) (abs_lt.mpr ⟨by omega, by omega⟩)]
  push_cast
  rfl

lemma roundToFloat_two_pow_25_sub_one : roundToFloat 33554431 = 33554432 := by
  rw [roundToFloat_eq _ 24 (by norm_num) (by norm_num [abs_of_pos]) (by norm_num [abs_of_pos])]
  have e1 : (33554431 : ℚ) / 2 ^ ((24 : ℤ) - 23) = ((16777215 : ℤ) : ℚ) + 1 / 2 := by
    norm_num
  rw [e1, roundHalfEven_tie]
  norm_num

lemma indexToNormalizedValue_last_example : indexToNormalizedValue 16777215 16777216 = 1 := by
  unfold indexToNormalizedValue
  have h1 : wrapInt32 (2 * 16777215 + 1) = 33554431 := by decide
  have h2 : wrapInt32 (2 * 16777216) = 33554432 := by decide
  have h3 : roundToFloat 33554432 = 33554432 := by
    have h := roundToFloat_of_multiple 1 25 (by norm_num) (by norm_num [abs_of_pos])
    norm_num at h
    exact h
  have h4 : roundToFloat 1 = 1 := by
    have h := roundToFloat_intCast 1 (by norm_num)
    simpa using h
  rw [h1, h2]
  push_cast
  rw [roundToFloat_two_pow_25_sub_one, h3]
  norm_num
  exact h4

lemma indexToNormalizedValue_overflow_example :
    indexToNormalizedValue 0 1073741824 = -1 / 2147483648 := by
  unfold indexToNormalizedValue
  have h1 : wrapInt32 (2 * 0 + 1) = 1 := by decide
  have h2 : wrapInt32 (2 * 1073741824) = -2147483648 := by decide
  have h3 : roundToFloat (-2147483648) = -2147483648 := by
    have h := roundToFloat_of_multiple (-1) 31 (by norm_num) (by norm_num [abs_of_pos])
    norm_num at h
    exact h
  have h4 : roundToFloat 1 = 1 := by
    have h := roundToFloat_intCast 1 (by norm_num)
    simpa using h
  have h5 : roundToFloat (-1 / 2147483648) = -1 / 2147483648 := by
    have h := roundToFloat_of_multiple (-1) (-31) (by norm_num) (by norm_num [abs_of_pos])
    norm_num at h ⊢
    exact h
  rw [h1, h2]
  push_cast
  rw [h4, h3]
  have e : (1 : ℚ) / -2147483648 = -1 / 2147483648 := by norm_num
  rw [e]
  exact h5

/-- C18 (counterexample): the claim is false of the functions as the machine computes
them. For `numIndices = 2^24 = 16777216` and the last index `i = 16777215`, the cast
`(float) (2*index+1)` rounds `33554431` to `33554432`, which is the denominator too:
the normalized value is exactly 1, not `(2i+1)/(2n)` and not below 1, and
`normalizedValueToIndex` maps it to `16777216`, not back to `i` (with the product
exact or rounded). For `numIndices = 2^30` the product `2*numIndices` does not fit an
`int`: it wraps to `-2^31`, the normalized value of index 0 is negative, and the
round trip gives -1. -/
theorem indexToNormalizedValue_round_trip_fails :
    indexToNormalizedValue 16777215 16777216 = 1 ∧
      (2 * ((16777215 : Int) : ℚ) + 1) / (2 * ((16777216 : Int) : ℚ)) < 1 ∧
      normalizedValueToIndex (indexToNormalizedValue 16777215 16777216) 16777216
        = 16777216 ∧
      normalizedValueToIndexFloat (indexToNormalizedValue 16777215 16777216) 16777216
        = 16777216 ∧
      wrapInt32 (2 * 1073741824) = -2147483648 ∧
      indexToNormalizedValue 0 1073741824 = -1 / 2147483648 ∧
      normalizedValueToIndex (indexToNormalizedValue 0 1073741824) 1073741824 = -1 := by
  have hfl : roundToFloat ((16777216 : Int) : ℚ) = ((16777216 : Int) : ℚ) := by
    have h := roundToFloat_of_multiple 1 24 (by norm_num) (by norm_num [abs_of_pos])
    norm_num at h ⊢
    exact h
  refine ⟨indexToNormalizedValue_last_example, by norm_num, ?_, ?_, by decide,
    indexToNormalizedValue_overflow_example, ?_⟩
  · rw [indexToNormalizedValue_last_example]
    unfold normalizedValueToIndex
    norm_num
  · rw [indexToNormalizedValue_last_example]
    unfold normalizedValueToIndexFloat
    rw [hfl, one_mul, hfl]
    norm_num
  · rw [indexToNormalizedValue_overflow_example]
    unfold normalizedValueToIndex
    norm_num

/-- C18 (amended): for every `numIndices = n` with `1 ≤ n ≤ 2^22` and every index `i`
with `0 ≤ i ≤ n-1`, with the casts, the quotient and the product rounded to `float`
as the machine does, `normalizedValueToIndex(indexToNormalizedValue(i, n), n) = i`
(with the product exact and with the product rounded), and `indexToNormalizedValue(i, n)`
is `(2i+1)/(2n)` rounded to `float`: it differs from `(2i+1)/(2n)` by at most `2^-25`
and lies strictly between 0 and 1. -/
theorem normalizedValueToIndex_indexToNormalizedValue (i n : Int) (hn : 1 ≤ n)
    (hn2 : n ≤ 2 ^ 22) (hi0 : 0 ≤ i) (hi : i ≤ n - 1) :
    normalizedValueToIndex (indexToNormalizedValue i n) n = i ∧
      normalizedValueToIndexFloat (indexToNormalizedValue i n) n = i ∧
      indexToNormalizedValue i n = roundToFloat ((2 * (i : ℚ) + 1) / (2 * (n : ℚ))) ∧
      |indexToNormalizedValue i n - (2 * (i : ℚ) + 1) / (2 * (n : ℚ))| ≤ 2 ^ (-25 : ℤ) ∧
      0 < indexToNormalizedValue i n ∧ indexToNormalizedValue i n < 1 := by
  have hv := indexToNormalizedValue_of_le i n hn hn2 hi0 hi
  have hnq : (1 : ℚ) ≤ (n : ℚ) := by exact_mod_cast hn
  have hnq2 : (n : ℚ) ≤ 4194304 := by exact_mod_cast hn2
  have hiq0 : (0 : ℚ) ≤ (i : ℚ) := by exact_mod_cast hi0
  have hiq : (i : ℚ) ≤ (n : ℚ) - 1 := by exact_mod_cast hi
  have hn0 : (0 : ℚ) < (n : ℚ) := by linarith
  have h2n : (0 : ℚ) < 2 * (n : ℚ) := by linarith
  set q : ℚ := (2 * (i : ℚ) + 1) / (2 * (n : ℚ)) with hq
  have hqn : q * (n : ℚ) = (i : ℚ) + 1 / 2 := by
    rw [hq]
    field_simp
    ring
  have hq0 : 0 < q := div_pos (by linarith) h2n
  have hq1 : q < 1 := by
    rw [hq, div_lt_one h2n]
    linarith
  have herr : |roundToFloat q - q| ≤ 2 ^ (-25 : ℤ) := by
    have h := abs_roundToFloat_sub_le q 0 (by norm_num) (by
      rw [abs_of_pos hq0]
      simpa using hq1)
    simpa using h
  have h25 : (2 : ℚ) ^ (-25 : ℤ) = 1 / 33554432 := by norm_num
  rw [h25] at herr
  obtain ⟨he1, he2⟩ := abs_le.mp herr
  -- the product with `n`, within 1/8 of `i + 1/2`
  have hprod1 : (i : ℚ) + 3 / 8 ≤ roundToFloat q * (n : ℚ) := by
    have : (roundToFloat q - q) * (n : ℚ) ≥ -(1 / 33554432) * (n : ℚ) :=
      mul_le_mul_of_nonneg_right he1 hn0.le
    nlinarith
  have hprod2 : roundToFloat q * (n : ℚ) ≤ (i : ℚ) + 5 / 8 := by
    have : (roundToFloat q - q) * (n : ℚ) ≤ 1 / 33554432 * (n : ℚ) :=
      mul_le_mul_of_nonneg_right he2 hn0.le
    nlinarith
  have hfn : roundToFloat (n : ℚ) = (n : ℚ) :=
    roundToFloat_intCast n (abs_lt.mpr ⟨by omega, by omega⟩)
  have herr2 : |roundToFloat (roundToFloat q * (n : ℚ)) - roundToFloat q * (n : ℚ)|
      ≤ 1 / 8 := by
    have h := abs_roundToFloat_sub_le (roundToFloat q * (n : ℚ)) 22 (by norm_num) (by
      rw [abs_of_nonneg (by linarith)]
      norm_num
      linarith)
    norm_num at h
    exact h
  obtain ⟨he3, he4⟩ := abs_le.mp herr2
  rw [hv]
  refine ⟨?_, ?_, rfl, ?_, ?_, ?_⟩
  · unfold normalizedValueToIndex
    rw [Int.floor_eq_iff]
    constructor <;> linarith
  · unfold normalizedValueToIndexFloat
    rw [hfn, Int.floor_eq_iff]
    constructor <;> linarith
  · rw [h25]
    exact herr
  · have : (1 : ℚ) / (2 * (n : ℚ)) ≤ q := by
      rw [hq]
      apply div_le_div_of_nonneg_right _ h2n.le
      linarith
    have h3 : (1 : ℚ) / 8388608 ≤ 1 / (2 * (n : ℚ)) := by
      apply div_le_div_of_nonneg_left (by norm_num) h2n
      linarith
    linarith
  · have : q ≤ 1 - 1 / (2 * (n : ℚ)) := by
      rw [hq, div_le_iff₀ h2n]
      field_simp
      linarith
    have h3 : (1 : ℚ) / 8388608 ≤ 1 / (2 * (n : ℚ)) := by
      apply div_le_div_of_nonneg_left (by norm_num) h2n
      linarith
    linarith

/-- Witness for C18 (amended): index 3 of 4 maps to 7/8, a `float` value, and back
to 3. -/
theorem normalizedValueToIndex_indexToNormalizedValue_witness :
    normalizedValueToIndex (indexToNormalizedValue 3 4) 4 = 3 ∧
      normalizedValueToIndexFloat (indexToNormalizedValue 3 4) 4 = 3 ∧
      indexToNormalizedValue 3 4
        = roundToFloat ((2 * ((3 : Int) : ℚ) + 1) / (2 * ((4 : Int) : ℚ))) ∧
      |indexToNormalizedValue 3 4 - (2 * ((3 : Int) : ℚ) + 1) / (2 * ((4 : Int) : ℚ))|
        ≤ 2 ^ (-25 : ℤ) ∧
      0 < indexToNormalizedValue 3 4 ∧ indexToNormalizedValue 3 4 < 1 :=
  normalizedValueToIndex_indexToNormalizedValue 3 4 (by decide) (by decide) (by decide)
    (by decide)


/-- C19 (evaluation at the failing input): for the normalized value 1.0, which is in
the closed range 0...1, and `numIndices = 4`, `normalizedValueToIndex` returns 4, which
is above the last index `numIndices - 1 = 3`. -/
theorem normalizedValueToIndex_one_out_of_range :
    normalizedValueToIndex 1 4 = 4 ∧ ¬ (normalizedValueToIndex 1 4 ≤ 4 - 1) := by
  have h : normalizedValueToIndex 1 4 = 4 := by
    unfold normalizedValueToIndex
    norm_num
  rw [h]
  exact ⟨rfl, by decide⟩

lemma expToLin_linToExp_real (x inMin inMax outMin outMax : ℝ) (h1 : inMin ≠ inMax)
    (h2 : 0 < outMin) (h3 : 0 < outMax) (h4 : outMin ≠ outMax) :
    expToLin Real.log (linToExp Real.exp Real.log x inMin inMax outMin outMax)
      outMin outMax inMin inMax = x := by
  have hlog : Real.log (outMax / outMin) ≠ 0 := by
    have hpos : 0 < outMax / outMin := div_pos h3 h2
    have hne : outMax / outMin ≠ 1 := by
      intro h
      rw [div_eq_one_iff_eq h2.ne'] at h
      exact h4 h.symm
    intro h
    rcases (Real.log_eq_zero.mp h) with h0 | h0 | h0
    · exact hpos.ne' h0
    · exact hne h0
    · linarith
  have hd : inMax - inMin ≠ 0 := sub_ne_zero.mpr (Ne.symm h1)
  unfold expToLin linToExp
  simp only
  rw [mul_div_cancel_left₀ _ h2.ne', Real.log_exp, mul_div_cancel_right₀ _ hlog]
  field_simp

/-- C20: over the reals, with `exp` and `log` the real exponential and natural
logarithm, `expToLin` undoes `linToExp` whenever `inMin ≠ inMax`, `outMin > 0`,
`outMax > 0` and `outMin ≠ outMax`, and `expToLinWithOffset` undoes
`linToExpWithOffset` when in addition `outMax + offset ≠ 0`. -/
theorem expToLin_inverts_linToExp (x inMin inMax outMin outMax offset : ℝ)
    (h1 : inMin ≠ inMax) (h2 : 0 < outMin) (h3 : 0 < outMax) (h4 : outMin ≠ outMax)
    (h5 : outMax + offset ≠ 0) :
    expToLin Real.log (linToExp Real.exp Real.log x inMin inMax outMin outMax)
        outMin outMax inMin inMax = x ∧
      expToLinWithOffset Real.log
        (linToExpWithOffset Real.exp Real.log x inMin inMax outMin outMax offset)
        outMin outMax inMin inMax offset = x := by
  refine ⟨expToLin_linToExp_real x inMin inMax outMin outMax h1 h2 h3 h4, ?_⟩
  have h := expToLin_linToExp_real x inMin inMax outMin outMax h1 h2 h3 h4
  unfold expToLinWithOffset linToExpWithOffset
  simp only
  have e : (linToExp Real.exp Real.log x inMin inMax outMin outMax + offset)
      * (outMax / (outMax + offset)) * (outMax + offset) / outMax - offset
      = linToExp Real.exp Real.log x inMin inMax outMin outMax := by
    field_simp
  rw [e]
  exact h

/-- Witness for C20: the mapping of 0...1 to 20...20000 from the source's own example,
at `x = 1/2` with offset 5. -/
theorem expToLin_inverts_linToExp_witness :
    expToLin Real.log (linToExp Real.exp Real.log (1 / 2) 0 1 20 20000) 20 20000 0 1 = 1 / 2 ∧
      expToLinWithOffset Real.log
        (linToExpWithOffset Real.exp Real.log (1 / 2) 0 1 20 20000 5) 20 20000 0 1 5 = 1 / 2 :=
  expToLin_inverts_linToExp (1 / 2) 0 1 20 20000 5 (by norm_num) (by norm_num) (by norm_num)
    (by norm_num) (by norm_num)

/-! ### Regeneration of the prototype table -/

lemma binFrequency_neg (j : ZMod 512) : binFrequency (-j) = binFrequency j := by
  unfold binFrequency
  rw [ZMod.neg_val]
  have hj := ZMod.val_lt j
  split_ifs with h
  · rw [h, ZMod.val_zero]
  · have : j.val ≠ 0 := by
      intro h0
      exact h ((ZMod.val_eq_zero j).mp h0)
    omega

lemma dft_conj (y : ZMod 512 → ℂ) (j : ZMod 512) :
    ZMod.dft (fun i => (starRingEnd ℂ) (y i)) j = (starRingEnd ℂ) (ZMod.dft y (-j)) := by
  simp only [ZMod.dft_apply, map_sum, smul_eq_mul, map_mul, mul_neg, neg_neg]
  refine Finset.sum_congr rfl (fun i _ => ?_)
  rw [← AddChar.map_neg_eq_conj]

lemma dft_re (y : ZMod 512 → ℂ) (j : ZMod 512) :
    ZMod.dft (fun i => (((y i).re : ℝ) : ℂ)) j
      = (ZMod.dft y j + (starRingEnd ℂ) (ZMod.dft y (-j))) / 2 := by
  have h : (fun i => (((y i).re : ℝ) : ℂ))
      = (2 : ℂ)⁻¹ • (y + fun i => (starRingEnd ℂ) (y i)) := by
    funext i
    simp only [Pi.smul_apply, Pi.add_apply, smul_eq_mul]
    rw [Complex.re_eq_add_conj]
    ring
  rw [h, map_smul, map_add]
  simp only [Pi.smul_apply, Pi.add_apply, smul_eq_mul]
  rw [dft_conj]
  ring

/-- C15: for every prototype and every level (so for the levels 1..11), the transform
of the stored table of that level is zero in every bin whose frequency is at or above
the level's cutoff, Nyquist divided by `2^level`; and the four trailing guard samples
of the row repeat its first four samples. -/
theorem generateMipMap_band_limited (prototypeTable : Nat → ℝ) (level : Nat) (j : ZMod 512)
    (hj : levelCutoff level ≤ (binFrequency j : ℚ)) :
    ZMod.dft (fun i : ZMod 512 => ((generateMipMap prototypeTable level i.val : ℝ) : ℂ)) j = 0 ∧
      ∀ g : Nat, g < 4 →
        generateMipMap prototypeTable level (512 + g) = generateMipMap prototypeTable level g := by
  constructor
  · have hfun : (fun i : ZMod 512 => ((generateMipMap prototypeTable level i.val : ℝ) : ℂ))
        = fun i : ZMod 512 =>
          ((((bandLimit level (fun i : ZMod 512 => ((prototypeTable i.val : ℝ) : ℂ))) i).re : ℝ)
            : ℂ) := by
      funext i
      unfold generateMipMap
      rw [if_pos (ZMod.val_lt i), ZMod.natCast_zmod_val]
    rw [hfun, dft_re]
    unfold bandLimit
    rw [LinearEquiv.apply_symm_apply]
    simp only [binFrequency_neg, if_pos hj, map_zero, add_zero, zero_div]
  · intro g hg
    unfold generateMipMap
    rw [if_neg (by omega), if_pos (by omega), if_pos (by omega)]
    have : 512 + g - 512 = g := by omega
    rw [this]

/-- Witness for C15: a ramp prototype, level 1 (cutoff 128) and bin 128. -/
theorem generateMipMap_band_limited_witness :
    ZMod.dft (fun i : ZMod 512 => ((generateMipMap (fun n => (n : ℝ)) 1 i.val : ℝ) : ℂ)) 128 = 0 ∧
      ∀ g : Nat, g < 4 →
        generateMipMap (fun n => (n : ℝ)) 1 (512 + g) = generateMipMap (fun n => (n : ℝ)) 1 g :=
  generateMipMap_band_limited (fun n => (n : ℝ)) 1 128 (by
    have h : binFrequency 128 = 128 := by decide
    rw [h]
    norm_num [levelCutoff])

/-! ### Mip level, loop count and bounds of `getSample` -/

lemma binaryExponent_example : binaryExponent 8 = 3 ∧ binaryExponent 1024 = 10 := by
  unfold binaryExponent
  have h8 : (8 : ℚ) = ((2 : ℕ) : ℚ) ^ (3 : ℤ) := by norm_num
  have h1024 : (1024 : ℚ) = ((2 : ℕ) : ℚ) ^ (10 : ℤ) := by norm_num
  constructor
  · rw [h8, Int.log_zpow (by norm_num)]
  · rw [h1024, Int.log_zpow (by norm_num)]

/-- C21: in `getSample` with both tables bound, both lookups are made at one and the same
level, `EXPOFFLT(increment) + 2`; whatever phase, blend and frequency the oscillator
has, the level is that function of the increment. -/
theorem getSample_table_level (EXPOFFLT : ℚ → Int) (fuel : Nat) (osc : BlendOscillator)
    (w1 w2 : MipMappedWaveTable) (phase blend freq : ℚ)
    (h1 : osc.waveTable1 = some w1) (h2 : osc.waveTable2 = some w2)
    (hT : 0 < osc.tableLengthDbl)
    (hf : ⌊phase / osc.tableLengthDbl⌋.toNat < fuel) :
    ∃ level : Int, level = EXPOFFLT osc.increment + 2 ∧
      (({ osc with phaseIndex := phase, blend := blend, freq := freq }).getSample
          EXPOFFLT fuel).map Prod.fst =
        some
          (addSamples
            ((w1.getValueLinear (floorInt (wrappedPhase phase osc.tableLengthDbl))
                (wrappedPhase phase osc.tableLengthDbl
                  - (floorInt (wrappedPhase phase osc.tableLengthDbl) : ℚ))
                level).map (fun v => (1 - blend) * v))
            (((w2.getValueLinear (floorInt (wrappedPhase phase osc.tableLengthDbl))
                (wrappedPhase phase osc.tableLengthDbl
                  - (floorInt (wrappedPhase phase osc.tableLengthDbl) : ℚ))
                level).map (fun v => blend * v)).map (fun v => v * (1 / 2)))) := by
  refine ⟨EXPOFFLT osc.increment + 2, rfl, ?_⟩
  rw [getSample_of_bound EXPOFFLT fuel
    { osc with phaseIndex := phase, blend := blend, freq := freq } w1 w2 h1 h2 hT hf]
  rfl

/-- Witness for C21: the example oscillator (increment 8, binary exponent 3) read at
phase 6.5 with blend 3/4 and frequency 880; the level is 5. -/
theorem getSample_table_level_witness :
    ∃ level : Int, level = 5 ∧
      (({ exampleOsc with phaseIndex := 13 / 2, blend := 3 / 4, freq := 880 }).getSample
          binaryExponent 1).map Prod.fst =
        some
          (addSamples
            ((rampTable.getValueLinear (floorInt (wrappedPhase (13 / 2) exampleOsc.tableLengthDbl))
                (wrappedPhase (13 / 2) exampleOsc.tableLengthDbl
                  - (floorInt (wrappedPhase (13 / 2) exampleOsc.tableLengthDbl) : ℚ))
                level).map (fun v => (1 - 3 / 4) * v))
            (((silentTable.getValueLinear
                (floorInt (wrappedPhase (13 / 2) exampleOsc.tableLengthDbl))
                (wrappedPhase (13 / 2) exampleOsc.tableLengthDbl
                  - (floorInt (wrappedPhase (13 / 2) exampleOsc.tableLengthDbl) : ℚ))
                level).map (fun v => 3 / 4 * v)).map (fun v => v * (1 / 2)))) := by
  obtain ⟨level, hl, h⟩ := getSample_table_level binaryExponent 1 exampleOsc rampTable
    silentTable (13 / 2) (3 / 4) 880 rfl rfl (by norm_num [exampleOsc])
    (by norm_num [exampleOsc])
  refine ⟨level, ?_, h⟩
  rw [hl]
  have h8 : exampleOsc.increment = 8 := rfl
  rw [h8, binaryExponent_example.1]
  rfl

lemma floorInt_phaseMod_bounds (p : ℚ) :
    0 ≤ floorInt (phaseMod p 512) ∧ floorInt (phaseMod p 512) ≤ 511 ∧
      0 ≤ phaseMod p 512 - (floorInt (phaseMod p 512) : ℚ) ∧
      phaseMod p 512 - (floorInt (phaseMod p 512) : ℚ) < 1 := by
  have h0 := phaseMod_nonneg p 512 (by norm_num)
  have h1 := phaseMod_lt p 512 (by norm_num)
  unfold floorInt
  have hlt : ⌊phaseMod p 512⌋ < 512 := by
    rw [Int.floor_lt]
    exact_mod_cast h1
  refine ⟨Int.floor_nonneg.mpr h0, by omega, ?_, ?_⟩
  · linarith [Int.floor_le (phaseMod p 512)]
  · linarith [Int.lt_floor_add_one (phaseMod p 512)]

lemma readTableSet_of_in_range (t : MipMappedWaveTable) (row col : Int)
    (hr0 : 0 ≤ row) (hr : row < numTables) (hc0 : 0 ≤ col) (hc : col < tableLength + 4) :
    t.readTableSet row col = some (t.tableSet row.toNat col.toNat) := by
  unfold MipMappedWaveTable.readTableSet
  rw [if_pos ⟨hr0, hr, hc0, hc⟩]

lemma getSample_step_in_columns (EXPOFFLT : ℚ → Int) (fuel : Nat) (osc : BlendOscillator)
    (w1 w2 : MipMappedWaveTable) (h1 : osc.waveTable1 = some w1)
    (h2 : osc.waveTable2 = some w2) (hT : osc.tableLengthDbl = (tableLength : ℚ))
    (hp : 0 ≤ osc.phaseIndex) (hinc : 0 ≤ osc.increment)
    (hf : ⌊osc.phaseIndex / osc.tableLengthDbl⌋.toNat < fuel) :
    ∃ (intIndex : Int) (frac : ℚ) (osc1 : BlendOscillator),
      osc.getSample EXPOFFLT fuel =
        some
          (addSamples
            ((w1.getValueLinear intIndex frac (EXPOFFLT osc.increment + 2)).map
              (fun v => (1 - osc.blend) * v))
            (((w2.getValueLinear intIndex frac (EXPOFFLT osc.increment + 2)).map
              (fun v => osc.blend * v)).map (fun v => v * (1 / 2))),
           osc1) ∧
      0 ≤ intIndex ∧ intIndex ≤ 511 ∧ 0 ≤ frac ∧ frac < 1 ∧
      intIndex + 1 ≤ 512 ∧ intIndex + 1 < tableLength + 4 ∧
      (∀ row : Int, 0 ≤ row → row < numTables →
        (w1.readTableSet row intIndex).isSome ∧ (w1.readTableSet row (intIndex + 1)).isSome ∧
        (w2.readTableSet row intIndex).isSome ∧ (w2.readTableSet row (intIndex + 1)).isSome) ∧
      0 ≤ osc1.phaseIndex ∧ osc1.phaseIndex < 512 + osc.increment ∧
      osc1.increment = osc.increment ∧
      osc1.tableLengthDbl = (tableLength : ℚ) ∧
      osc1.waveTable1 = some w1 ∧ osc1.waveTable2 = some w2 := by
  have hT512 : osc.tableLengthDbl = 512 := by
    rw [hT]
    simp [tableLength]
  have hTpos : 0 < osc.tableLengthDbl := by
    rw [hT512]
    norm_num
  have hs := getSample_of_bound EXPOFFLT fuel osc w1 w2 h1 h2 hTpos hf
  rw [wrappedPhase_of_nonneg _ _ hTpos hp, hT512] at hs
  obtain ⟨hi0, hi1, hf0, hf1⟩ := floorInt_phaseMod_bounds osc.phaseIndex
  have hq0 := phaseMod_nonneg osc.phaseIndex 512 (by norm_num)
  have hq1 := phaseMod_lt osc.phaseIndex 512 (by norm_num)
  refine ⟨_, _, _, hs, hi0, hi1, hf0, hf1, by omega, ?_, ?_, ?_, ?_, rfl,
    by simp [tableLength], h1, h2⟩
  · unfold tableLength
    omega
  · intro row hr0 hr
    have hc : floorInt (phaseMod osc.phaseIndex 512) < tableLength + 4 := by
      unfold tableLength
      omega
    have hc1 : floorInt (phaseMod osc.phaseIndex 512) + 1 < tableLength + 4 := by
      unfold tableLength
      omega
    rw [readTableSet_of_in_range w1 row _ hr0 hr hi0 hc,
      readTableSet_of_in_range w1 row _ hr0 hr (by omega) hc1,
      readTableSet_of_in_range w2 row _ hr0 hr hi0 hc,
      readTableSet_of_in_range w2 row _ hr0 hr (by omega) hc1]
    exact ⟨rfl, rfl, rfl, rfl⟩
  · simp only
    linarith
  · simp only
    linarith

lemma afterSamples_keeps_invariant (EXPOFFLT : ℚ → Int) (fuel : Nat)
    (w1 w2 : MipMappedWaveTable) (inc : ℚ) (hinc : 0 ≤ inc)
    (hfi : ⌊inc / 512⌋.toNat + 1 < fuel) (n : Nat) :
    ∀ osc : BlendOscillator, osc.waveTable1 = some w1 → osc.waveTable2 = some w2 →
      osc.tableLengthDbl = (tableLength : ℚ) → osc.increment = inc →
      0 ≤ osc.phaseIndex → ⌊osc.phaseIndex / osc.tableLengthDbl⌋.toNat < fuel →
      ∃ oscN : BlendOscillator, osc.afterSamples EXPOFFLT fuel n = some oscN ∧
        oscN.waveTable1 = some w1 ∧ oscN.waveTable2 = some w2 ∧
        oscN.tableLengthDbl = (tableLength : ℚ) ∧ oscN.increment = inc ∧
        0 ≤ oscN.phaseIndex ∧ ⌊oscN.phaseIndex / oscN.tableLengthDbl⌋.toNat < fuel := by
  induction n with
  | zero =>
    intro osc h1 h2 hT hi hp hf
    exact ⟨osc, rfl, h1, h2, hT, hi, hp, hf⟩
  | succ n ih =>
    intro osc h1 h2 hT hi hp hf
    obtain ⟨i, f, osc1, hs, _, _, _, _, _, _, _, hp1, hp1lt, hi1, hT1, hw1, hw2⟩ :=
      getSample_step_in_columns EXPOFFLT fuel osc w1 w2 h1 h2 hT hp (by rw [hi]; exact hinc) hf
    have hT512 : osc1.tableLengthDbl = 512 := by
      rw [hT1]
      simp [tableLength]
    have hf1 : ⌊osc1.phaseIndex / osc1.tableLengthDbl⌋.toNat < fuel := by
      rw [hT512]
      have hlt : ⌊osc1.phaseIndex / 512⌋ < ⌊inc / 512⌋ + 2 := by
        rw [Int.floor_lt]
        have hfl := Int.lt_floor_add_one (inc / 512)
        push_cast
        rw [hi] at hp1lt
        have e : osc1.phaseIndex / 512 < 1 + inc / 512 := by
          rw [div_lt_iff₀ (by norm_num : (0 : ℚ) < 512)]
          linarith
        linarith
      have hnn : 0 ≤ ⌊inc / 512⌋ := Int.floor_nonneg.mpr (div_nonneg hinc (by norm_num))
      omega
    obtain ⟨oscN, hN, r⟩ := ih osc1 hw1 hw2 hT1 (hi1.trans hi) hp1 hf1
    refine ⟨oscN, ?_, r⟩
    unfold BlendOscillator.afterSamples
    rw [hs]
    exact hN

/-- C23: with both tables bound, `tableLengthDbl = 512`, a stored phase `≥ 0` and an
increment `≥ 0`, every `getSample` call (the one after any number `n` of earlier calls,
all of which return) passes to both lookups an integer index in `0..511` and a fraction
in `[0, 1)`; the two columns read, index and index + 1, are in `0..512`, inside the
516-sample rows of both tables, and the stored phase is again `≥ 0` after the call. -/
theorem getSample_reads_inside_rows (EXPOFFLT : ℚ → Int) (fuel : Nat)
    (osc : BlendOscillator) (w1 w2 : MipMappedWaveTable) (n : Nat)
    (h1 : osc.waveTable1 = some w1) (h2 : osc.waveTable2 = some w2)
    (hT : osc.tableLengthDbl = (tableLength : ℚ))
    (hp : 0 ≤ osc.phaseIndex) (hinc : 0 ≤ osc.increment)
    (hf : ⌊osc.phaseIndex / osc.tableLengthDbl⌋.toNat < fuel)
    (hfi : ⌊osc.increment / 512⌋.toNat + 1 < fuel) :
    ∃ (oscN : BlendOscillator) (intIndex : Int) (frac : ℚ) (osc1 : BlendOscillator),
      osc.afterSamples EXPOFFLT fuel n = some oscN ∧
      0 ≤ oscN.phaseIndex ∧ 0 ≤ oscN.increment ∧
      oscN.getSample EXPOFFLT fuel =
        some
          (addSamples
            ((w1.getValueLinear intIndex frac (EXPOFFLT oscN.increment + 2)).map
              (fun v => (1 - oscN.blend) * v))
            (((w2.getValueLinear intIndex frac (EXPOFFLT oscN.increment + 2)).map
              (fun v => oscN.blend * v)).map (fun v => v * (1 / 2))),
           osc1) ∧
      0 ≤ intIndex ∧ intIndex ≤ 511 ∧ 0 ≤ frac ∧ frac < 1 ∧
      intIndex + 1 ≤ 512 ∧ intIndex + 1 < tableLength + 4 ∧
      (∀ row : Int, 0 ≤ row → row < numTables →
        (w1.readTableSet row intIndex).isSome ∧ (w1.readTableSet row (intIndex + 1)).isSome ∧
        (w2.readTableSet row intIndex).isSome ∧ (w2.readTableSet row (intIndex + 1)).isSome) ∧
      0 ≤ osc1.phaseIndex ∧ 0 ≤ osc1.increment := by
  obtain ⟨oscN, hN, hw1, hw2, hTN, hiN, hpN, hfN⟩ :=
    afterSamples_keeps_invariant EXPOFFLT fuel w1 w2 osc.increment hinc hfi n osc h1 h2 hT rfl
      hp hf
  have hincN : 0 ≤ oscN.increment := by
    rw [hiN]
    exact hinc
  obtain ⟨i, f, osc1, hs, hi0, hi1, hf0, hf1, hc1, hc2, hrows, hp1, _, hinc1, _, _, _⟩ :=
    getSample_step_in_columns EXPOFFLT fuel oscN w1 w2 hw1 hw2 hTN hpN hincN hfN
  exact ⟨oscN, i, f, osc1, hN, hpN, hincN, hs, hi0, hi1, hf0, hf1, hc1, hc2, hrows, hp1, by
    rw [hinc1]
    exact hincN⟩

/-- Witness for C23: the fourth call on the example oscillator (phase 1030.5, increment
8, table length 512). -/
theorem getSample_reads_inside_rows_witness :
    ∃ (oscN : BlendOscillator) (intIndex : Int) (frac : ℚ) (osc1 : BlendOscillator),
      exampleOsc.afterSamples binaryExponent 3 3 = some oscN ∧
      0 ≤ oscN.phaseIndex ∧ 0 ≤ oscN.increment ∧
      oscN.getSample binaryExponent 3 =
        some
          (addSamples
            ((rampTable.getValueLinear intIndex frac (binaryExponent oscN.increment + 2)).map
              (fun v => (1 - oscN.blend) * v))
            (((silentTable.getValueLinear intIndex frac
                (binaryExponent oscN.increment + 2)).map
              (fun v => oscN.blend * v)).map (fun v => v * (1 / 2))),
           osc1) ∧
      0 ≤ intIndex ∧ intIndex ≤ 511 ∧ 0 ≤ frac ∧ frac < 1 ∧
      intIndex + 1 ≤ 512 ∧ intIndex + 1 < tableLength + 4 ∧
      (∀ row : Int, 0 ≤ row → row < numTables →
        (rampTable.readTableSet row intIndex).isSome ∧
        (rampTable.readTableSet row (intIndex + 1)).isSome ∧
        (silentTable.readTableSet row intIndex).isSome ∧
        (silentTable.readTableSet row (intIndex + 1)).isSome) ∧
      0 ≤ osc1.phaseIndex ∧ 0 ≤ osc1.increment :=
  getSample_reads_inside_rows binaryExponent 3 exampleOsc rampTable silentTable 3 rfl rfl
    (by simp [exampleOsc, tableLength]) (by norm_num [exampleOsc]) (by norm_num [exampleOsc])
    (by norm_num [exampleOsc]) (by norm_num [exampleOsc])

lemma interpolation_between (a b f : ℚ) (hf0 : 0 ≤ f) (hf1 : f ≤ 1) :
    min a b ≤ (1 - f) * a + f * b ∧ (1 - f) * a + f * b ≤ max a b := by
  rcases le_total a b with h | h
  · rw [min_eq_left h, max_eq_right h]
    constructor <;> nlinarith
  · rw [min_eq_right h, max_eq_left h]
    constructor <;> nlinarith

lemma getSample_sample_bounded (EXPOFFLT : ℚ → Int) (fuel : Nat) (osc : BlendOscillator)
    (w1 w2 : MipMappedWaveTable) (h1 : osc.waveTable1 = some w1)
    (h2 : osc.waveTable2 = some w2) (hT : osc.tableLengthDbl = (tableLength : ℚ))
    (hp : 0 ≤ osc.phaseIndex) (hb0 : 0 ≤ osc.blend) (hb1 : osc.blend ≤ 1)
    (hw1 : ∀ r c : Nat, r < 12 → c < 516 → |w1.tableSet r c| ≤ 1)
    (hw2 : ∀ r c : Nat, r < 12 → c < 516 → |w2.tableSet r c| ≤ 1)
    (hlevel : EXPOFFLT osc.increment + 2 ≠ 12)
    (hf : ⌊osc.phaseIndex / osc.tableLengthDbl⌋.toNat < fuel) :
    ∃ (intIndex : Int) (frac a1 b1 a2 b2 v1 v2 s : ℚ),
      w1.readTableSet (clampTableIndex (EXPOFFLT osc.increment + 2)) intIndex = some a1 ∧
      w1.readTableSet (clampTableIndex (EXPOFFLT osc.increment + 2)) (intIndex + 1) = some b1 ∧
      w2.readTableSet (clampTableIndex (EXPOFFLT osc.increment + 2)) intIndex = some a2 ∧
      w2.readTableSet (clampTableIndex (EXPOFFLT osc.increment + 2)) (intIndex + 1) = some b2 ∧
      w1.getValueLinear intIndex frac (EXPOFFLT osc.increment + 2) = some v1 ∧
      w2.getValueLinear intIndex frac (EXPOFFLT osc.increment + 2) = some v2 ∧
      min a1 b1 ≤ v1 ∧ v1 ≤ max a1 b1 ∧ min a2 b2 ≤ v2 ∧ v2 ≤ max a2 b2 ∧
      (osc.getSample EXPOFFLT fuel).map Prod.fst = some (some s) ∧
      s = (1 - osc.blend) * v1 + 1 / 2 * osc.blend * v2 ∧
      |s| ≤ (1 - osc.blend) + 1 / 2 * osc.blend ∧
      (1 - osc.blend) + 1 / 2 * osc.blend = 1 - osc.blend / 2 ∧ 1 - osc.blend / 2 ≤ 1 := by
  have hT512 : osc.tableLengthDbl = 512 := by
    rw [hT]
    simp [tableLength]
  have hTpos : 0 < osc.tableLengthDbl := by
    rw [hT512]
    norm_num
  have hs := getSample_of_bound EXPOFFLT fuel osc w1 w2 h1 h2 hTpos hf
  rw [wrappedPhase_of_nonneg _ _ hTpos hp, hT512] at hs
  obtain ⟨hi0, hi1, hf0, hf1⟩ := floorInt_phaseMod_bounds osc.phaseIndex
  obtain ⟨hr0, hr, _⟩ := clampTableIndex_of_ne_twelve _ hlevel
  have hrn : clampTableIndex (EXPOFFLT osc.increment + 2) < 12 := by
    simpa [numTables] using hr
  have hc : floorInt (phaseMod osc.phaseIndex 512) < tableLength + 4 := by
    unfold tableLength
    omega
  have hc1 : floorInt (phaseMod osc.phaseIndex 512) + 1 < tableLength + 4 := by
    unfold tableLength
    omega
  have hra1 := readTableSet_of_in_range w1 _ _ hr0 hr hi0 hc
  have hrb1 := readTableSet_of_in_range w1 _ _ hr0 hr (by omega) hc1
  have hra2 := readTableSet_of_in_range w2 _ _ hr0 hr hi0 hc
  have hrb2 := readTableSet_of_in_range w2 _ _ hr0 hr (by omega) hc1
  have hv1 : w1.getValueLinear (floorInt (phaseMod osc.phaseIndex 512))
      (phaseMod osc.phaseIndex 512 - (floorInt (phaseMod osc.phaseIndex 512) : ℚ))
      (EXPOFFLT osc.increment + 2) =
        some ((1 - (phaseMod osc.phaseIndex 512 - (floorInt (phaseMod osc.phaseIndex 512) : ℚ)))
            * w1.tableSet (clampTableIndex (EXPOFFLT osc.increment + 2)).toNat
                (floorInt (phaseMod osc.phaseIndex 512)).toNat
          + (phaseMod osc.phaseIndex 512 - (floorInt (phaseMod osc.phaseIndex 512) : ℚ))
            * w1.tableSet (clampTableIndex (EXPOFFLT osc.increment + 2)).toNat
                (floorInt (phaseMod osc.phaseIndex 512) + 1).toNat) := by
    unfold MipMappedWaveTable.getValueLinear
    simp only [hra1, hrb1]
  have hv2 : w2.getValueLinear (floorInt (phaseMod osc.phaseIndex 512))
      (phaseMod osc.phaseIndex 512 - (floorInt (phaseMod osc.phaseIndex 512) : ℚ))
      (EXPOFFLT osc.increment + 2) =
        some ((1 - (phaseMod osc.phaseIndex 512 - (floorInt (phaseMod osc.phaseIndex 512) : ℚ)))
            * w2.tableSet (clampTableIndex (EXPOFFLT osc.increment + 2)).toNat
                (floorInt (phaseMod osc.phaseIndex 512)).toNat
          + (phaseMod osc.phaseIndex 512 - (floorInt (phaseMod osc.phaseIndex 512) : ℚ))
            * w2.tableSet (clampTableIndex (EXPOFFLT osc.increment + 2)).toNat
                (floorInt (phaseMod osc.phaseIndex 512) + 1).toNat) := by
    unfold MipMappedWaveTable.getValueLinear
    simp only [hra2, hrb2]
  have hrow : (clampTableIndex (EXPOFFLT osc.increment + 2)).toNat < 12 := by omega
  have hcol : (floorInt (phaseMod osc.phaseIndex 512)).toNat < 516 := by omega
  have hcol1 : (floorInt (phaseMod osc.phaseIndex 512) + 1).toNat < 516 := by omega
  have ba1 := abs_le.mp (hw1 _ _ hrow hcol)
  have bb1 := abs_le.mp (hw1 _ _ hrow hcol1)
  have ba2 := abs_le.mp (hw2 _ _ hrow hcol)
  have bb2 := abs_le.mp (hw2 _ _ hrow hcol1)
  have hbetween1 := interpolation_between
    (w1.tableSet (clampTableIndex (EXPOFFLT osc.increment + 2)).toNat
      (floorInt (phaseMod osc.phaseIndex 512)).toNat)
    (w1.tableSet (clampTableIndex (EXPOFFLT osc.increment + 2)).toNat
      (floorInt (phaseMod osc.phaseIndex 512) + 1).toNat)
    _ hf0 hf1.le
  have hbetween2 := interpolation_between
    (w2.tableSet (clampTableIndex (EXPOFFLT osc.increment + 2)).toNat
      (floorInt (phaseMod osc.phaseIndex 512)).toNat)
    (w2.tableSet (clampTableIndex (EXPOFFLT osc.increment + 2)).toNat
      (floorInt (phaseMod osc.phaseIndex 512) + 1).toNat)
    _ hf0 hf1.le
  refine ⟨_, _, _, _, _, _, _, _, _, hra1, hrb1, hra2, hrb2, hv1, hv2, hbetween1.1,
    hbetween1.2, hbetween2.1, hbetween2.2, ?_, rfl, ?_, by ring, by linarith⟩
  · rw [hs]
    simp only [Option.map_some', hv1, hv2, addSamples]
    congr 2
    ring
  · have hlo1 := le_trans (le_min ba1.1 bb1.1) hbetween1.1
    have hhi1 := le_trans hbetween1.2 (max_le ba1.2 bb1.2)
    have hlo2 := le_trans (le_min ba2.1 bb2.1) hbetween2.1
    have hhi2 := le_trans hbetween2.2 (max_le ba2.2 bb2.2)
    have hb1' : 0 ≤ 1 - osc.blend := by linarith
    rw [abs_le]
    constructor <;> nlinarith

/-- C24 (evaluation at the failing input): after `setIncrement(1024)` the level is
`10 + 2 = 12` (10 being the binary exponent of 1024), which the range check of the
lookup lets through. With both tables bound, phase 0, blend 0 and every table entry 0
(so within `[-1, 1]`), the lookups address row 12, outside `tableSet`, and the sample
has no defined value, so no bound on it follows from the table entries. -/
theorem getSample_level_twelve_sample_undefined :
    overrangeOsc.waveTable1 = some silentTable ∧ overrangeOsc.waveTable2 = some silentTable ∧
      overrangeOsc.phaseIndex = 0 ∧ overrangeOsc.blend = 0 ∧
      (∀ r c : Nat, |silentTable.tableSet r c| ≤ 1) ∧
      binaryExponent overrangeOsc.increment + 2 = 12 ∧
      clampTableIndex 12 = 12 ∧
      (overrangeOsc.getSample binaryExponent 1).map Prod.fst = some none := by
  have hlevel : binaryExponent overrangeOsc.increment + 2 = 12 := by
    have h : overrangeOsc.increment = 1024 := rfl
    rw [h, binaryExponent_example.2]
    rfl
  have hclamp : clampTableIndex 12 = 12 := by decide
  refine ⟨rfl, rfl, rfl, rfl, ?_, hlevel, hclamp, ?_⟩
  · intro r c
    simp [silentTable]
  · have hT : overrangeOsc.tableLengthDbl = 512 := rfl
    have hp : overrangeOsc.phaseIndex = 0 := rfl
    rw [getSample_of_bound binaryExponent 1 overrangeOsc silentTable silentTable rfl rfl
      (by rw [hT]; norm_num) (by rw [hT, hp]; norm_num), hlevel]
    simp [MipMappedWaveTable.getValueLinear, MipMappedWaveTable.readTableSet, hclamp,
      numTables, addSamples]

end rosic
